import Mathlib

/-!
Verification development for the aims-io trajectory converter.

The Python sources (src/aims_io/aims_io.py and src/aims_io/utils.py) are
shallowly embedded below.  Text is modelled as lists of characters
(a Python string becomes a Lean List Char, a text file becomes a list of
lines); Python floats are modelled as exact rationals; numpy division by
zero is modelled by an explicit extended-value type; Python exceptions are
modelled by Option/Except-style results.  All definitions are executable.
-/

/-- Line abbreviates a single line of text, modelled as a list of characters. -/
abbrev Line := List Char

/-- Whitespace test used by Python str.split and str.strip (ASCII subset). -/
def pyIsSpace (c : Char) : Bool :=
  c = ' ' || c = '\t' || c = '\n' || c = '\r' || c = '\x0b' || c = '\x0c'

/-- Model of Python str.strip: drop leading and trailing whitespace. -/
def pyStrip (cs : List Char) : List Char :=
  ((cs.dropWhile pyIsSpace).reverse.dropWhile pyIsSpace).reverse

/-- Model of Python str.lstrip applied with the comment marker: drop leading hash characters. -/
def lstripHash (cs : List Char) : List Char :=
  cs.dropWhile (fun c => c = '#')

/-- Helper for pySplitWs, carrying the (reversed) current token. -/
def splitWsAux : List Char → List Char → List (List Char)
  | [], acc => if acc.isEmpty then [] else [acc.reverse]
  | c :: cs, acc =>
    if pyIsSpace c then
      if acc.isEmpty then splitWsAux cs [] else acc.reverse :: splitWsAux cs []
    else splitWsAux cs (c :: acc)

/-- Model of Python str.split() with no argument: split on whitespace runs, no empty tokens. -/
def pySplitWs (cs : List Char) : List (List Char) := splitWsAux cs []

/-- Helper for splitOnChar, carrying the (reversed) current piece. -/
def splitOnCharAux (sep : Char) : List Char → List Char → List (List Char)
  | [], acc => [acc.reverse]
  | c :: cs, acc =>
    if c = sep then acc.reverse :: splitOnCharAux sep cs []
    else splitOnCharAux sep cs (c :: acc)

/-- Model of Python str.split(sep) for a one-character separator: n separators give n+1 pieces. -/
def splitOnChar (sep : Char) (cs : List Char) : List (List Char) := splitOnCharAux sep cs []

/-- Boolean list-prefix test on characters. -/
def isPrefixChars : List Char → List Char → Bool
  | [], _ => true
  | _ :: _, [] => false
  | p :: ps, c :: cs => p = c && isPrefixChars ps cs

/-- Model of the Python substring test (pat in s). -/
def containsSub (pat : List Char) : List Char → Bool
  | [] => isPrefixChars pat []
  | c :: cs => isPrefixChars pat (c :: cs) || containsSub pat cs

/-- Character for a single decimal digit value. -/
def digitChar (n : Nat) : Char := Char.ofNat (48 + n)

/-- Numeric value of a decimal digit character. -/
def digitVal (c : Char) : Nat := c.toNat - 48

/-- Value of a most-significant-first decimal digit string. -/
def digitsVal (cs : List Char) : Nat := cs.foldl (fun a c => a * 10 + digitVal c) 0

/-- Boolean test that every character is a decimal digit. -/
def allDigits (cs : List Char) : Bool := cs.all Char.isDigit

/-- Fuel-driven decimal rendering of a natural number (fuel keeps recursion structural). -/
def natToDigitsAux : Nat → Nat → List Char
  | 0, _ => []
  | fuel + 1, n =>
    if n < 10 then [digitChar n]
    else natToDigitsAux fuel (n / 10) ++ [digitChar (n % 10)]

/-- Decimal rendering of a natural number, most significant digit first. -/
def natToDigits (n : Nat) : List Char := natToDigitsAux (n + 1) n

/-- Model of Python str on an int: optional minus sign and decimal digits. -/
def strOfInt (z : ℤ) : List Char :=
  (if z < 0 then ['-'] else []) ++ natToDigits z.natAbs

/-- Parse an unsigned decimal literal (digits, optionally with one decimal point) to a rational. -/
def parseUnsignedDec (cs : List Char) : Option ℚ :=
  match List.span (fun c => c ≠ '.') cs with
  | (ip, []) =>
    if ip.isEmpty then none
    else if allDigits ip then some ((digitsVal ip : ℚ)) else none
  | (ip, _ :: fp) =>
    if ip.isEmpty && fp.isEmpty then none
    else if allDigits ip && allDigits fp then
      some ((digitsVal ip : ℚ) + (digitsVal fp : ℚ) / (10 : ℚ) ^ fp.length)
    else none

/-- Model of Python float() restricted to plain decimal literals (optional sign and
decimal point; exponent forms, inf and nan are outside the modelled fragment).
Returns none where Python raises ValueError. -/
def pyFloatChars (cs0 : List Char) : Option ℚ :=
  match pyStrip cs0 with
  | [] => none
  | c :: r =>
    if c = '+' then parseUnsignedDec r
    else if c = '-' then (parseUnsignedDec r).map (fun q => -q)
    else parseUnsignedDec (c :: r)

/-- Parse an unsigned decimal integer literal. -/
def parseUnsignedInt (cs : List Char) : Option ℤ :=
  if cs.isEmpty then none
  else if allDigits cs then some ((digitsVal cs : ℤ)) else none

/-- Model of Python int() on a decimal string; none where Python raises ValueError. -/
def pyIntChars (cs0 : List Char) : Option ℤ :=
  match pyStrip cs0 with
  | [] => none
  | c :: r =>
    if c = '+' then parseUnsignedInt r
    else if c = '-' then (parseUnsignedInt r).map (fun z => -z)
    else parseUnsignedInt (c :: r)

/-- Zero-padded decimal rendering of the fractional part to exactly k digits. -/
def padDigits (k : Nat) (m : Nat) : List Char :=
  List.replicate (k - (natToDigits m).length) '0' ++ natToDigits m

/-- Model of Python str on a float whose exact value is the rational q: a plain decimal
rendering sign, integer part, decimal point, fractional part.  The number of fractional
digits used is q.den, which is enough whenever q has a finite decimal expansion; the
rendered value is exact (CPython prints the shortest equivalent form, which has the
same numeric value). -/
def renderFloat (q : ℚ) : List Char :=
  let k := q.den
  let n := (q * (10 : ℚ) ^ k).num
  let m := n.natAbs
  (if q < 0 then ['-'] else []) ++ natToDigits (m / 10 ^ k) ++ '.' :: padDigits k (m % 10 ^ k)

/-- Typed numeric field as produced by the Python converter: int or float. -/
inductive PyNum where
  | pint (z : ℤ)
  | pfloat (q : ℚ)
deriving DecidableEq

/-- Field typing rule of the source (utils.py line 18): float when the field contains
a decimal point, int otherwise. -/
def parseField (cs : List Char) : Option PyNum :=
  if containsSub ['.'] cs then (pyFloatChars cs).map PyNum.pfloat
  else (pyIntChars cs).map PyNum.pint

/-- Decimal text written for one field by the csv writer (Python str of the value). -/
def renderField : PyNum → List Char
  | PyNum.pint z => strOfInt z
  | PyNum.pfloat q => renderFloat q

/-- Result of AimsIO.get_ex_shift: the parsed value, or normal completion with the
ex_shift attribute left unset, or a raised exception (IndexError or ValueError). -/
inductive ExShiftResult where
  | found (q : ℚ)
  | unset
  | err
deriving DecidableEq

/-- Embedding of AimsIO.get_ex_shift (aims_io.py lines 58-63): scan lines of the
control file; on the first line containing the marker, take the FIRST whitespace
token of that line, split it on the equals sign, and parse the piece at index 1
as a float. -/
def get_ex_shift : List Line → ExShiftResult
  | [] => ExShiftResult.unset
  | l :: ls =>
    if containsSub ("ExShift".toList) l then
      match pySplitWs l with
      | [] => ExShiftResult.err
      | t :: _ =>
        match (splitOnChar '=' t).get? 1 with
        | none => ExShiftResult.err
        | some v =>
          match pyFloatChars v with
          | some x => ExShiftResult.found x
          | none => ExShiftResult.err
    else get_ex_shift ls

/-- Sentinel marker of the topology report. -/
def propagateMarker : List Char := "Propagate until:".toList

/-- Particle-block header marker of the topology report. -/
def particleMarker : List Char := "Particle #".toList

/-- Element marker of the topology report. -/
def elementMarker : List Char := "Element:".toList

/-- Mass marker of the topology report. -/
def massMarker : List Char := "Mass:".toList

/-- Association-list lookup used to model the Python dict of masses
(first matching key wins, matching dict insertion followed by membership tests). -/
def alookup (k : List Char) : List (List Char × ℚ) → Option ℚ
  | [] => none
  | p :: ps => if p.1 = k then some p.2 else alookup k ps

/-- Recursion of AimsIO.extract_masses_and_symbols (aims_io.py lines 65-94) over the
report lines, carrying the masses dict, the ordered atom list, the current element and
the reading_particles flag.  Returns none where Python raises (IndexError from a
missing second token, ValueError from a malformed mass). -/
def extract_aux : List Line → List (Line × ℚ) → List Line → Option Line → Bool →
    Option (List Line × List (Line × ℚ))
  | [], masses, atoms_list, _, _ => some (atoms_list, masses)
  | l :: ls, masses, atoms_list, element, reading =>
    let line := pyStrip l
    if containsSub propagateMarker line then some (atoms_list, masses)
    else if isPrefixChars particleMarker line then
      extract_aux ls masses atoms_list element true
    else if reading then
      if containsSub elementMarker line then
        match (pySplitWs line).get? 1 with
        | some el => extract_aux ls masses (atoms_list ++ [el]) (some el) reading
        | none => none
      else if containsSub massMarker line then
        match element with
        | some el =>
          match (pySplitWs line).get? 1 with
          | some tok =>
            match pyFloatChars tok with
            | some m =>
              extract_aux ls
                (if (alookup el masses).isSome then masses else masses ++ [(el, m)])
                atoms_list element reading
            | none => none
          | none => none
        | none => extract_aux ls masses atoms_list element reading
      else extract_aux ls masses atoms_list element reading
    else extract_aux ls masses atoms_list element reading

/-- Embedding of AimsIO.extract_masses_and_symbols: scan the report with empty
accumulators, reading off (atoms_list, masses). -/
def extract_masses_and_symbols (lines : List Line) : Option (List Line × List (Line × ℚ)) :=
  extract_aux lines [] [] none false

/-- Extended numeric value produced by numpy elementwise division: a finite rational,
a signed infinity, or nan.  Numpy emits these silently (by default a RuntimeWarning,
not an exception) when the divisor is zero. -/
inductive NumVal where
  | fin (q : ℚ)
  | inf
  | ninf
  | nan
deriving DecidableEq

/-- Numpy scalar division semantics: x / 0 is inf for positive x, -inf for negative x,
nan for 0 / 0; otherwise the exact quotient. -/
def npDiv (x d : ℚ) : NumVal :=
  if d = 0 then (if 0 < x then NumVal.inf else if x < 0 then NumVal.ninf else NumVal.nan)
  else NumVal.fin (x / d)

/-- Elementwise difference of two atom-by-3 arrays (numpy broadcast on equal shapes). -/
def matSub (A B : List (List ℚ)) : List (List ℚ) :=
  List.zipWith (List.zipWith (fun a b => a - b)) A B

/-- Elementwise division of an atom-by-3 array by a scalar, with numpy zero-divisor
semantics. -/
def matDivScalar (A : List (List ℚ)) (d : ℚ) : List (List NumVal) :=
  A.map (fun r => r.map (fun x => npDiv x d))

/-- Embedding of AimsIO.calc_forces (aims_io.py lines 166-174): for each timestep t
up to len(momenta) - 1, the force entry is
(momenta[t+1] - momenta[t]) / (time[t+1] - time[t]), elementwise. -/
def calc_forces (momenta : List (List (List ℚ))) (time : List ℚ) : List (List (List NumVal)) :=
  (List.range (momenta.length - 1)).map (fun t =>
    matDivScalar (matSub (momenta.getD (t + 1) []) (momenta.getD t []))
      (time.getD (t + 1) 0 - time.getD t 0))

/-- One written extxyz record: converted positions, chemical symbols, periodic flag,
converted energy and converted forces, as passed to ase.Atoms and
SinglePointCalculator in write_extxyz. -/
structure XyzFrame where
  positions : List (List ℚ)
  symbols : List (List Char)
  pbc : Bool
  energy : ℚ
  forces : List (List ℚ)
deriving DecidableEq

/-- Failure modes of write_extxyz: the ValueError for an unsupported unit system, or
an IndexError from indexing positions/energy beyond their length. -/
inductive WriteErr where
  | unsupportedUnits (u : List Char)
  | indexErr
deriving DecidableEq

/-- Conversion constant ase.units.Bohr (Bohr radius in angstrom, CODATA 2014 value
used by ase). -/
def aseBohr : ℚ := 0.5291772105638411

/-- Conversion constant ase.units.Hartree (Hartree energy in eV, CODATA 2014 value
used by ase). -/
def aseHartree : ℚ := 27.211386024367243

/-- Elementwise scaling of an atom-by-3 array by a constant. -/
def matScale (c : ℚ) (A : List (List ℚ)) : List (List ℚ) :=
  A.map (fun r => r.map (fun x => x * c))

/-- Loop body of write_extxyz: for each index i in order, read positions[i], energy[i]
and forces[i], convert positions by the Bohr constant, and append one non-periodic
record to the file; a missing index raises, leaving the records appended so far. -/
def appendFrames (positions : List (List (List ℚ))) (energy : List ℚ)
    (forcesScaled : List (List (List ℚ))) (atoms_list : List (List Char)) :
    List Nat → List XyzFrame → List XyzFrame × Option WriteErr
  | [], file => (file, none)
  | i :: is, file =>
    match positions.get? i, energy.get? i, forcesScaled.get? i with
    | some p, some e, some f =>
      appendFrames positions energy forcesScaled atoms_list is
        (file ++ [{ positions := matScale aseBohr p, symbols := atoms_list,
                    pbc := false, energy := e, forces := f }])
    | _, _, _ => (file, some WriteErr.indexErr)

/-- Embedding of AimsIO.write_extxyz (aims_io.py lines 109-136).  The output file is
modelled as the list of records appended to it; the function returns the final file
contents together with the raised error, if any.  For the metal unit system the
energy series is scaled by Hartree and the force series by Hartree/Bohr before the
loop; any other unit system raises ValueError before the loop runs. -/
def write_extxyz (units : List Char) (file0 : List XyzFrame)
    (positions : List (List (List ℚ))) (forces : List (List (List ℚ)))
    (energy : List ℚ) (atoms_list : List (List Char)) :
    List XyzFrame × Option WriteErr :=
  if units = "metal".toList then
    let energy2 := energy.map (fun e => e * aseHartree)
    let forces2 := forces.map (matScale (aseHartree / aseBohr))
    appendFrames positions energy2 forces2 atoms_list (List.range forces2.length) file0
  else (file0, some (WriteErr.unsupportedUnits units))

/-- Normalized table produced by create_csv_from_aims_traj_dump and loaded by
pandas.read_csv: a header of column names and numeric rows. -/
structure Table where
  header : List (List Char)
  rows : List (List ℚ)
deriving DecidableEq

/-- Column selection by boolean mask, as in traj_dump.loc with a
str.contains mask on the column names: keep the row entries whose column name
satisfies the predicate, in column order. -/
def filterByHeader (p : List Char → Bool) (header : List (List Char)) (row : List ℚ) : List ℚ :=
  (List.zip header row).filterMap (fun hx => if p hx.1 then some hx.2 else none)

/-- Split a flat buffer into consecutive triples (row-major innermost dimension 3). -/
def chunk3 : List ℚ → List (List ℚ)
  | a :: b :: c :: rest => [a, b, c] :: chunk3 rest
  | _ => []

/-- Split a list of triples into n consecutive groups of k triples each
(row-major middle dimension). -/
def groupsOfSize (k : Nat) : Nat → List (List ℚ) → List (List (List ℚ))
  | 0, _ => []
  | n + 1, xs => xs.take k :: groupsOfSize k n (xs.drop k)

/-- Numpy reshape of a rows-by-columns block to shape (rows, -1, 3): flatten the
buffer row-major, then rebuild with innermost dimension 3 and the middle dimension
inferred.  Errors (none) when the row count is zero or the total size is not
divisible by 3 times the row count, as numpy does. -/
def npReshapeRows3 (rows : List (List ℚ)) : Option (List (List (List ℚ))) :=
  let flat := rows.flatten
  let n := rows.length
  if n = 0 then none
  else if flat.length % (3 * n) = 0 then
    some (groupsOfSize (flat.length / (3 * n)) n (chunk3 flat))
  else none

/-- Truncation toward zero, matching numpy astype(int) on the exact value. -/
def truncToInt (q : ℚ) : ℤ := q.num.tdiv q.den

/-- Structured per-timestep arrays returned by read_trajdump. -/
structure TrajData where
  positions : List (List (List ℚ))
  momenta : List (List (List ℚ))
  states : List (List ℤ)
  time : List ℚ
deriving DecidableEq

/-- Index of the first column with exactly the given name (label lookup of pandas). -/
def colIndex (name : List Char) : List (List Char) → Option Nat
  | [] => none
  | h :: hs => if h = name then some 0 else (colIndex name hs).map (fun i => i + 1)

/-- Embedding of AimsIO.read_trajdump (aims_io.py lines 138-156) on the loaded
normalized table: select the Time column by exact name, the position, momentum and
state blocks by name-substring match, reshape positions and momenta to
(rows, -1, 3), and truncate state entries to integers.  Returns none where pandas
raises KeyError (no Time column) or numpy raises on reshape. -/
def read_trajdump (tbl : Table) : Option TrajData :=
  match colIndex ("Time".toList) tbl.header with
  | none => none
  | some ti =>
    let posRows := tbl.rows.map (filterByHeader (fun h => containsSub ['p', 'o', 's'] h) tbl.header)
    let momRows := tbl.rows.map (filterByHeader (fun h => containsSub ['m', 'o', 'm'] h) tbl.header)
    let stateRows := tbl.rows.map (filterByHeader (fun h => containsSub ("StateID".toList) h) tbl.header)
    match npReshapeRows3 posRows, npReshapeRows3 momRows with
    | some positions, some momenta =>
      some { positions := positions, momenta := momenta,
             states := stateRows.map (fun r => r.map truncToInt),
             time := tbl.rows.map (fun r => r.getD ti 0) }
    | _, _ => none

/-- All-or-nothing elementwise conversion, modelling a Python list comprehension
that raises on the first failing element. -/
def mapOpt {a b : Type} (f : a → Option b) : List a → Option (List b)
  | [] => some []
  | x :: xs =>
    match f x, mapOpt f xs with
    | some y, some ys => some (y :: ys)
    | _, _ => none

/-- Comma-join of fields, as written by csv.writer for fields needing no quoting. -/
def csvJoin : List (List Char) → List Char
  | [] => []
  | [f] => f
  | f :: fs => f ++ ',' :: csvJoin fs

/-- Embedding of create_csv_from_aims_traj_dump (utils.py lines 5-19): the first
line is stripped, its leading hash characters removed, and split into header tokens;
each further line is split into whitespace fields, each field parsed as float when
it contains a decimal point and as int otherwise (none where Python raises
ValueError); the output file is the list of comma-joined lines, fields rendered
with Python str. -/
def create_csv_from_aims_traj_dump : List Line → Option (List Line)
  | [] => some [csvJoin []]
  | h :: dataLines =>
    let header := pySplitWs (lstripHash (pyStrip h))
    match mapOpt (fun l => mapOpt parseField (pySplitWs (pyStrip l))) dataLines with
    | some rows => some (csvJoin header :: rows.map (fun r => csvJoin (r.map renderField)))
    | none => none

/-- Re-parse one comma-delimited data line with the same field-typing rule
(float when the field contains a decimal point, int otherwise). -/
def reparseCsvLine (l : Line) : Option (List PyNum) :=
  mapOpt parseField (splitOnChar ',' l)

/-- Re-parse a comma-delimited table: header tokens from the first line, typed
numeric fields from the rest. -/
def reparseCsv : List Line → Option (List (List Char) × List (List PyNum))
  | [] => none
  | h :: ds =>
    match mapOpt reparseCsvLine ds with
    | some rows => some (splitOnChar ',' h, rows)
    | none => none

/-- Directly parse the raw whitespace-delimited table: header tokens from the
hash-stripped first line, and typed numeric fields from the whitespace-split data
lines, with the same field-typing rule. -/
def parseRawTable : List Line → Option (List (List Char) × List (List PyNum))
  | [] => none
  | h :: ds =>
    match mapOpt (fun l => mapOpt parseField (pySplitWs (pyStrip l))) ds with
    | some rows => some (pySplitWs (lstripHash (pyStrip h)), rows)
    | none => none

/-- First-some choice on optional values. -/
def optOr : Option ℚ → Option ℚ → Option ℚ
  | some v, _ => some v
  | none, b => b

/-- Region of the (stripped) report before the first sentinel line containing the
Propagate until: marker. -/
def beforePropagate (lines : List Line) : List Line :=
  (lines.map pyStrip).takeWhile (fun l => !containsSub propagateMarker l)

/-- Region of the (stripped) report strictly between the first line starting with
the Particle # marker and the sentinel: the range in which the specification counts
Element: lines and first-seen masses. -/
def specRange (lines : List Line) : List Line :=
  ((beforePropagate lines).dropWhile
    (fun l => !isPrefixChars particleMarker l)).drop 1

/-- Count, per the specification, of the lines in a region that carry the Element:
marker and are not particle-block headers. -/
def countElementLines (region : List Line) : Nat :=
  (region.filter (fun l =>
    !isPrefixChars particleMarker l && containsSub elementMarker l)).length

/-- Masses seen in a region, per the specification: each Mass: line yields the pair
of the current element (set by the most recent Element: line) and the parsed mass,
in order of appearance.  The first pair for a given element is its first-seen
mass. -/
def specMassEvents : List Line → Option Line → List (Line × ℚ)
  | [], _ => []
  | l :: ls, cur =>
    if isPrefixChars particleMarker l then specMassEvents ls cur
    else if containsSub elementMarker l then specMassEvents ls ((pySplitWs l).get? 1)
    else if containsSub massMarker l then
      match cur, (pySplitWs l).get? 1 with
      | some e, some tok =>
        match pyFloatChars tok with
        | some m => (e, m) :: specMassEvents ls cur
        | none => specMassEvents ls cur
      | _, _ => specMassEvents ls cur
    else specMassEvents ls cur

/-- Region of the report still relevant to extract_aux in a given reading state:
everything up to the sentinel once a particle block was entered, and the range
after the first particle marker otherwise. -/
def activeRegion (reading : Bool) (lines : List Line) : List Line :=
  if reading then beforePropagate lines else specRange lines

/-- Concrete topology report used as witness input: two particle blocks before the
sentinel and one after it. -/
def topoReportW : List Line :=
  ["Particle #     1:".toList,
   "    Element: C".toList,
   "    Mass: 12".toList,
   "Particle #     2:".toList,
   "    Element: H".toList,
   "    Mass: 1".toList,
   "Propagate until: 100".toList,
   "Particle #     3:".toList,
   "    Element: O".toList,
   "    Mass: 16".toList]

/-!
Claims about the control parser (get_ex_shift).
-/

/-- Claim C1 is false on the code: for a control file whose line is
SomeKey=1 ExShift=78.5 OtherKey=2, get_ex_shift parses the FIRST whitespace token
of the line (SomeKey=1) and returns 1, not the claimed 78.5.  The embedding has no
other outcome for this input, so the parsed ex_shift differs from the claimed X. -/
theorem C1_counterexample :
    get_ex_shift ["SomeKey=1 ExShift=78.5 OtherKey=2".toList] = ExShiftResult.found 1 ∧
    ExShiftResult.found (1 : ℚ) ≠ ExShiftResult.found (78.5 : ℚ) := by
  refine ⟨by decide, ?_⟩
  simp only [ne_eq, ExShiftResult.found.injEq]
  norm_num

/-- Claim C1 (amended): on the first line containing the ExShift marker, get_ex_shift
returns the numeric value following the equals sign inside the FIRST whitespace
token of that line; in particular it returns X whenever the token ExShift=X is the
first token of that line, but for SomeKey=1 ExShift=78.5 OtherKey=2 it returns 1. -/
theorem C1_amended (pre : List Line) (l : Line) (post : List Line)
    (t : List Char) (rest : List (List Char)) (v : List Char) (x : ℚ)
    (hpre : ∀ p ∈ pre, containsSub ("ExShift".toList) p = false)
    (hl : containsSub ("ExShift".toList) l = true)
    (hsplit : pySplitWs l = t :: rest)
    (hv : (splitOnChar '=' t).get? 1 = some v)
    (hx : pyFloatChars v = some x) :
    get_ex_shift (pre ++ l :: post) = ExShiftResult.found x := by
  induction pre with
  | nil =>
    simp only [List.nil_append, get_ex_shift, hl, if_true, hsplit, hv, hx]
  | cons p ps ih =>
    have hp : containsSub ("ExShift".toList) p = false := hpre p (by simp)
    simp only [List.cons_append, get_ex_shift, hp, Bool.false_eq_true, if_false]
    exact ih (fun q hq => hpre q (by simp [hq]))

/-- Witness for C1_amended at a concrete control file: the second line has
ExShift=3 as its first token, and the parser returns 3. -/
theorem C1_amended_witness :
    get_ex_shift (["Other=1".toList] ++ "ExShift=3".toList :: ["Tail=2".toList]) =
      ExShiftResult.found 3 :=
  C1_amended ["Other=1".toList] ("ExShift=3".toList) ["Tail=2".toList]
    ("ExShift=3".toList) [] ['3'] 3 (by decide) (by decide) (by decide) (by decide) (by decide)

/-- Claim C8 is false on the code: for a control file with no ExShift line,
get_ex_shift completes normally with the ex_shift attribute left unset; no error is
raised during the scan (the err outcome, which models a raised exception, is not
produced). -/
theorem C8_counterexample :
    get_ex_shift ["timestep=20".toList] = ExShiftResult.unset ∧
    ExShiftResult.unset ≠ ExShiftResult.err := by
  exact ⟨by decide, by decide⟩

/-- Claim C8 (amended): whenever no line of the control file contains the ExShift
marker, get_ex_shift completes normally and leaves the value unset, raising no error
at parse time (a failure would only surface later, when the unset attribute is
read). -/
theorem C8_amended (lines : List Line)
    (h : ∀ l ∈ lines, containsSub ("ExShift".toList) l = false) :
    get_ex_shift lines = ExShiftResult.unset := by
  induction lines with
  | nil => rfl
  | cons l ls ih =>
    have hl : containsSub ("ExShift".toList) l = false := h l (by simp)
    simp only [get_ex_shift, hl, Bool.false_eq_true, if_false]
    exact ih (fun q hq => h q (by simp [hq]))

/-- Witness for C8_amended at a concrete keyless control file. -/
theorem C8_amended_witness :
    get_ex_shift ["timestep=20".toList, "nstep=5".toList] = ExShiftResult.unset :=
  C8_amended ["timestep=20".toList, "nstep=5".toList] (by decide)

/-!
Claims about the force estimator (calc_forces).
-/

/-- Length of the force series: one fewer than the number of momentum frames. -/
lemma calc_forces_length (m : List (List (List ℚ))) (time : List ℚ) :
    (calc_forces m time).length = m.length - 1 := by
  simp [calc_forces]

/-- Entry t of the force series, unfolded from the loop body. -/
lemma calc_forces_getD (m : List (List (List ℚ))) (time : List ℚ) (t : Nat)
    (h : t + 1 < m.length) :
    (calc_forces m time).getD t [] =
      matDivScalar (matSub (m.getD (t + 1) []) (m.getD t []))
        (time.getD (t + 1) 0 - time.getD t 0) := by
  have hlen : t < (calc_forces m time).length := by
    rw [calc_forces_length]; omega
  rw [List.getD_eq_getElem _ _ hlen]
  simp [calc_forces]

/-- Division of an array by a nonzero scalar produces only finite quotients. -/
lemma matDivScalar_of_ne (A : List (List ℚ)) (d : ℚ) (hd : d ≠ 0) :
    matDivScalar A d = A.map (fun r => r.map (fun x => NumVal.fin (x / d))) := by
  simp [matDivScalar, npDiv, hd]

/-- Division of an array by the zero scalar produces only non-finite values. -/
lemma matDivScalar_zero (A : List (List ℚ)) :
    matDivScalar A 0 = A.map (fun r => r.map (fun x =>
      if 0 < x then NumVal.inf else if x < 0 then NumVal.ninf else NumVal.nan)) := by
  simp [matDivScalar, npDiv]

/-- Elementwise subtraction of a vector from itself is the zero vector. -/
lemma zipWith_sub_self (r : List ℚ) :
    List.zipWith (fun a b => a - b) r r = r.map (fun _ => (0 : ℚ)) := by
  induction r with
  | nil => rfl
  | cons a as ih => simp [ih]

/-- Elementwise subtraction of an array from itself is the zero array. -/
lemma matSub_self (A : List (List ℚ)) :
    matSub A A = A.map (fun r => r.map (fun _ => (0 : ℚ))) := by
  induction A with
  | nil => rfl
  | cons r rs ih =>
    simp only [matSub, List.zipWith_cons_cons, zipWith_sub_self, List.map_cons]
    exact congrArg _ (by simp only [matSub] at ih; exact ih)

/-- Claim C2 is false on the code: with momenta [[1,0,0]],[[2,0,0]] at the equal
timestamps [0,0], calc_forces completes and returns a force entry made of inf and
nan values (the numpy division-by-zero semantics), rather than failing with an
arithmetic error: the embedding is total and has no failure outcome here. -/
theorem C2_counterexample :
    calc_forces [[[1, 0, 0]], [[2, 0, 0]]] [0, 0] =
      [[[NumVal.inf, NumVal.nan, NumVal.nan]]] := by
  norm_num [calc_forces, matSub, matDivScalar, npDiv, List.range_succ]

/-- Claim C2 (amended): when two consecutive timestamps are equal, calc_forces does
not fail; at that timestep it silently produces non-finite entries, namely inf where
the momentum difference is positive, -inf where it is negative and nan where it is
zero. -/
theorem C2_amended (momenta : List (List (List ℚ))) (time : List ℚ) (t : Nat)
    (hlt : t + 1 < momenta.length)
    (heq : time.getD (t + 1) 0 = time.getD t 0) :
    (calc_forces momenta time).getD t [] =
      (matSub (momenta.getD (t + 1) []) (momenta.getD t [])).map
        (fun r => r.map (fun x =>
          if 0 < x then NumVal.inf else if x < 0 then NumVal.ninf else NumVal.nan)) := by
  have hz : time.getD (t + 1) 0 - time.getD t 0 = 0 := by rw [heq]; ring
  rw [calc_forces_getD _ _ _ hlt, hz, matDivScalar_zero]

/-- Witness for C2_amended at a concrete input with a repeated timestamp. -/
theorem C2_amended_witness :
    (calc_forces [[[3, 0, 0]], [[1, 0, 0]]] [5, 5]).getD 0 [] =
      [[NumVal.ninf, NumVal.nan, NumVal.nan]] := by
  rw [C2_amended [[[3, 0, 0]], [[1, 0, 0]]] [5, 5] 0 (by norm_num) (by norm_num)]
  norm_num [matSub]

/-- Claim C3: with T momentum frames and pairwise-distinct consecutive timestamps,
calc_forces returns T - 1 entries, entry t being the elementwise quotient
(momenta[t+1] - momenta[t]) / (time[t+1] - time[t]); constant momentum gives
all-zero forces, and the three-timestep scenario of the specification returns
[[2,0,0]],[[0,0,0]]. -/
theorem C3_calc_forces (momenta : List (List (List ℚ))) (time : List ℚ) (T : Nat)
    (hm : momenta.length = T) (ht : time.length = T) (hT : 1 ≤ T)
    (hd : ∀ t, t + 1 < T → time.getD (t + 1) 0 ≠ time.getD t 0) :
    (calc_forces momenta time).length = T - 1 ∧
    (∀ t, t + 1 < T →
      (calc_forces momenta time).getD t [] =
        (matSub (momenta.getD (t + 1) []) (momenta.getD t [])).map
          (fun r => r.map (fun x =>
            NumVal.fin (x / (time.getD (t + 1) 0 - time.getD t 0))))) ∧
    ((∀ i, momenta.getD i [] = momenta.getD 0 []) →
      ∀ t, t + 1 < T →
        (calc_forces momenta time).getD t [] =
          (momenta.getD 0 []).map (fun r => r.map (fun _ => NumVal.fin 0))) ∧
    calc_forces [[[0, 0, 0]], [[2, 0, 0]], [[2, 0, 0]]] [0, 1, 2] =
      [[[NumVal.fin 2, NumVal.fin 0, NumVal.fin 0]],
       [[NumVal.fin 0, NumVal.fin 0, NumVal.fin 0]]] := by
  have hentry : ∀ t, t + 1 < T →
      (calc_forces momenta time).getD t [] =
        (matSub (momenta.getD (t + 1) []) (momenta.getD t [])).map
          (fun r => r.map (fun x =>
            NumVal.fin (x / (time.getD (t + 1) 0 - time.getD t 0)))) := by
    intro t htT
    have hne : time.getD (t + 1) 0 - time.getD t 0 ≠ 0 :=
      sub_ne_zero_of_ne (hd t htT)
    rw [calc_forces_getD _ _ _ (by omega), matDivScalar_of_ne _ _ hne]
  refine ⟨by rw [calc_forces_length, hm], hentry, ?_, ?_⟩
  · intro hconst t htT
    rw [hentry t htT, hconst (t + 1), hconst t, matSub_self]
    simp [List.map_map, Function.comp_def]
  · norm_num [calc_forces, matSub, matDivScalar, npDiv, List.range_succ,
      List.replicate_succ]

/-- Witness for C3_calc_forces: the length clause at the concrete three-timestep
scenario input. -/
theorem C3_witness :
    (calc_forces [[[0, 0, 0]], [[2, 0, 0]], [[2, 0, 0]]] [0, 1, 2]).length = 3 - 1 :=
  (C3_calc_forces [[[0, 0, 0]], [[2, 0, 0]], [[2, 0, 0]]] [0, 1, 2] 3 rfl rfl
    (by norm_num)
    (by
      intro t ht
      have h01 : t = 0 ∨ t = 1 := by omega
      rcases h01 with h | h <;> subst h <;> norm_num [List.getD])).1

/-!
Claims about the structure writer (write_extxyz).
-/

/-- Loop failures of write_extxyz are index errors, never the unsupported-unit
error: the unit check happens before the loop. -/
lemma appendFrames_ne_unsupported (p : List (List (List ℚ))) (e : List ℚ)
    (f : List (List (List ℚ))) (a : List (List Char)) :
    ∀ (is : List Nat) (file : List XyzFrame) (u : List Char),
      (appendFrames p e f a is file).2 ≠ some (WriteErr.unsupportedUnits u) := by
  intro is
  induction is with
  | nil => intro file u; simp [appendFrames]
  | cons i is ih =>
    intro file u
    simp only [appendFrames]
    cases hp : p.get? i with
    | none => simp
    | some pv =>
      cases he : e.get? i with
      | none => simp
      | some ev =>
        cases hf : f.get? i with
        | none => simp
        | some fv => exact ih _ u

/-- Successful run of the write loop: with every index of the list in bounds, the
loop appends one converted record per index, in order, and raises nothing. -/
lemma appendFrames_ok (p : List (List (List ℚ))) (e : List ℚ)
    (f : List (List (List ℚ))) (a : List (List Char)) :
    ∀ (is : List Nat),
      (∀ i ∈ is, i < p.length ∧ i < e.length ∧ i < f.length) →
      ∀ (file : List XyzFrame),
        appendFrames p e f a is file =
          (file ++ is.map (fun i =>
            { positions := matScale aseBohr (p.getD i []), symbols := a, pbc := false,
              energy := e.getD i 0, forces := f.getD i [] }), none) := by
  intro is
  induction is with
  | nil => intro _ file; simp [appendFrames]
  | cons i is ih =>
    intro hb file
    obtain ⟨hip, hie, hif⟩ := hb i (by simp)
    have hp : p.get? i = some (p.getD i []) := by
      rw [List.getD_eq_getElem _ _ hip]; exact List.get?_eq_get hip
    have he : e.get? i = some (e.getD i 0) := by
      rw [List.getD_eq_getElem _ _ hie]; exact List.get?_eq_get hie
    have hf : f.get? i = some (f.getD i []) := by
      rw [List.getD_eq_getElem _ _ hif]; exact List.get?_eq_get hif
    simp only [appendFrames, hp, he, hf]
    rw [ih (fun j hj => hb j (by simp [hj])) (file ++ [_])]
    simp

/-- Unfolding of the metal branch of write_extxyz. -/
lemma write_extxyz_metal (file0 : List XyzFrame) (p : List (List (List ℚ)))
    (f : List (List (List ℚ))) (e : List ℚ) (a : List (List Char)) :
    write_extxyz ("metal".toList) file0 p f e a =
      appendFrames p (e.map (fun x => x * aseHartree))
        (f.map (matScale (aseHartree / aseBohr))) a
        (List.range (f.map (matScale (aseHartree / aseBohr))).length) file0 := rfl

/-- Claim C9: write_extxyz raises the unsupported-unit error exactly for unit-system
values other than metal; with metal that error is never raised (any failure with
metal is an index error from the loop, not this one). -/
theorem C9_units (units : List Char) (file0 : List XyzFrame)
    (positions : List (List (List ℚ))) (forces : List (List (List ℚ)))
    (energy : List ℚ) (atoms_list : List (List Char)) :
    (write_extxyz units file0 positions forces energy atoms_list).2 =
      some (WriteErr.unsupportedUnits units) ↔ units ≠ "metal".toList := by
  constructor
  · intro h hmet
    rw [write_extxyz, if_pos hmet] at h
    exact appendFrames_ne_unsupported _ _ _ _ _ _ _ h
  · intro h
    rw [write_extxyz, if_neg h]

/-- Claim C10: for a unit system other than metal, write_extxyz raises before the
loop, so the destination file is returned unchanged, with no record appended. -/
theorem C10_no_partial_write (units : List Char) (file0 : List XyzFrame)
    (positions : List (List (List ℚ))) (forces : List (List (List ℚ)))
    (energy : List ℚ) (atoms_list : List (List Char))
    (h : units ≠ "metal".toList) :
    write_extxyz units file0 positions forces energy atoms_list =
      (file0, some (WriteErr.unsupportedUnits units)) := by
  rw [write_extxyz, if_neg h]

/-- Witness for C10_no_partial_write at the concrete unit system si. -/
theorem C10_witness :
    write_extxyz ("si".toList) [] [[[1, 0, 0]]] [] [0] ["C".toList] =
      ([], some (WriteErr.unsupportedUnits ("si".toList))) :=
  C10_no_partial_write ("si".toList) [] [[[1, 0, 0]]] [] [0] ["C".toList] (by decide)

/-- Claim C6: with T position frames, T - 1 force frames and at least T energies
under the metal unit system, write_extxyz appends exactly T - 1 records in timestep
order; record i carries positions[i] scaled by the Bohr constant, energy[i] scaled
by the Hartree constant, forces[i] scaled by Hartree/Bohr, and a false periodic
flag.  The last position frame is never read. -/
theorem C6_writer (T : Nat) (file0 : List XyzFrame)
    (positions : List (List (List ℚ))) (forces : List (List (List ℚ)))
    (energy : List ℚ) (atoms_list : List (List Char))
    (hp : positions.length = T) (hf : forces.length = T - 1)
    (he : T ≤ energy.length) (hT : 1 ≤ T) :
    write_extxyz ("metal".toList) file0 positions forces energy atoms_list =
      (file0 ++ (List.range (T - 1)).map (fun i =>
        { positions := matScale aseBohr (positions.getD i []),
          symbols := atoms_list, pbc := false,
          energy := energy.getD i 0 * aseHartree,
          forces := matScale (aseHartree / aseBohr) (forces.getD i []) }), none) := by
  rw [write_extxyz_metal]
  have hlen2 : (forces.map (matScale (aseHartree / aseBohr))).length = T - 1 := by
    simp [hf]
  rw [hlen2]
  rw [appendFrames_ok _ _ _ _ _ ?bounds file0]
  case bounds =>
    intro i hi
    rw [List.mem_range] at hi
    refine ⟨by omega, by simp; omega, by simp [hf]; omega⟩
  refine congrArg (fun l => (file0 ++ l, (none : Option WriteErr))) ?_
  apply List.map_congr_left
  intro i hi
  rw [List.mem_range] at hi
  have hie : i < energy.length := by omega
  have hif : i < forces.length := by omega
  have h1 : (energy.map (fun x => x * aseHartree)).getD i 0 = energy.getD i 0 * aseHartree := by
    rw [List.getD_eq_getElem _ _ (by simp; omega), List.getD_eq_getElem _ _ hie]
    simp
  have h2 : (forces.map (matScale (aseHartree / aseBohr))).getD i [] =
      matScale (aseHartree / aseBohr) (forces.getD i []) := by
    rw [List.getD_eq_getElem _ _ (by simp; omega), List.getD_eq_getElem _ _ hif]
    simp
  rw [h1, h2]

/-- Witness for C6_writer at a concrete two-timestep input. -/
theorem C6_witness :
    write_extxyz ("metal".toList) [] [[[1, 0, 0]], [[2, 0, 0]]] [[[0, 0, 0]]] [0, 0]
        ["C".toList] =
      ([] ++ (List.range (2 - 1)).map (fun i =>
        { positions := matScale aseBohr ([[[(1 : ℚ), 0, 0]], [[2, 0, 0]]].getD i []),
          symbols := ["C".toList], pbc := false,
          energy := [(0 : ℚ), 0].getD i 0 * aseHartree,
          forces := matScale (aseHartree / aseBohr) ([[[(0 : ℚ), 0, 0]]].getD i []) }), none) :=
  C6_writer 2 [] [[[1, 0, 0]], [[2, 0, 0]]] [[[0, 0, 0]]] [0, 0] ["C".toList]
    rfl rfl (by norm_num) (by norm_num)

/-!
Claims about the trajectory reader (read_trajdump).
-/

/-- Chunking distributes over an append at a multiple-of-three boundary. -/
lemma chunk3_append : ∀ (r s : List ℚ), r.length % 3 = 0 →
    chunk3 (r ++ s) = chunk3 r ++ chunk3 s
  | [], s, _ => by simp [chunk3]
  | [a], s, h => by simp at h
  | [a, b], s, h => by simp at h
  | a :: b :: c :: r, s, h => by
    have h' : r.length % 3 = 0 := by
      simp only [List.length_cons] at h; omega
    simp only [List.cons_append, chunk3, List.append_eq]
    rw [chunk3_append r s h']

/-- Flattening the triples restores a buffer whose length is a multiple of three. -/
lemma chunk3_flatten : ∀ (r : List ℚ), r.length % 3 = 0 → (chunk3 r).flatten = r
  | [], _ => rfl
  | [a], h => by simp at h
  | [a, b], h => by simp at h
  | a :: b :: c :: r, h => by
    have h' : r.length % 3 = 0 := by
      simp only [List.length_cons] at h; omega
    simp [chunk3, chunk3_flatten r h']

/-- Number of triples produced from a buffer of length divisible by three. -/
lemma chunk3_length : ∀ (r : List ℚ), r.length % 3 = 0 →
    (chunk3 r).length = r.length / 3
  | [], _ => rfl
  | [a], h => by simp at h
  | [a, b], h => by simp at h
  | a :: b :: c :: r, h => by
    have h' : r.length % 3 = 0 := by
      simp only [List.length_cons] at h; omega
    simp only [chunk3, List.length_cons, chunk3_length r h']
    omega

/-- Every chunk produced by chunk3 has exactly three entries. -/
lemma chunk3_mem : ∀ (r : List ℚ), ∀ v ∈ chunk3 r, v.length = 3
  | [], v, hv => by simp [chunk3] at hv
  | [a], v, hv => by simp [chunk3] at hv
  | [a, b], v, hv => by simp [chunk3] at hv
  | a :: b :: c :: r, v, hv => by
    simp only [chunk3, List.mem_cons] at hv
    rcases hv with h | h
    · subst h; rfl
    · exact chunk3_mem r v h

/-- Total length of a flattened list of rows of constant length. -/
lemma flatten_length_const (c : Nat) : ∀ (rows : List (List ℚ)),
    (∀ r ∈ rows, r.length = c) → rows.flatten.length = rows.length * c
  | [], _ => by simp
  | r :: rest, h => by
    have hr : r.length = c := h r (by simp)
    have ih := flatten_length_const c rest (fun x hx => h x (by simp [hx]))
    simp only [List.flatten_cons, List.length_append, List.length_cons, hr, ih]
    ring

/-- Row-major regrouping of the chunked flat buffer recovers per-row chunking when
all rows have the uniform length 3k. -/
lemma groupsOfSize_chunk3 (k : Nat) : ∀ (rows : List (List ℚ)),
    (∀ r ∈ rows, r.length = 3 * k) →
    groupsOfSize k rows.length (chunk3 rows.flatten) = rows.map chunk3
  | [], _ => rfl
  | r :: rest, h => by
    have hr : r.length = 3 * k := h r (by simp)
    have hmod : r.length % 3 = 0 := by omega
    have hlen : (chunk3 r).length = k := by
      rw [chunk3_length r hmod, hr]; omega
    simp only [List.length_cons, List.flatten_cons, groupsOfSize,
      chunk3_append r rest.flatten hmod, List.map_cons]
    rw [← hlen, List.take_left, List.drop_left, hlen]
    rw [groupsOfSize_chunk3 k rest (fun x hx => h x (by simp [hx]))]

/-- Numpy reshape to (rows, -1, 3) on a nonempty rectangular block of width 3k
succeeds and equals per-row chunking into triples. -/
lemma npReshapeRows3_uniform (k : Nat) (rows : List (List ℚ))
    (hne : rows ≠ []) (hu : ∀ r ∈ rows, r.length = 3 * k) :
    npReshapeRows3 rows = some (rows.map chunk3) := by
  have hn : rows.length ≠ 0 := by
    intro h0; exact hne (List.eq_nil_of_length_eq_zero h0)
  have hflat : rows.flatten.length = rows.length * (3 * k) :=
    flatten_length_const (3 * k) rows hu
  have hmod : rows.flatten.length % (3 * rows.length) = 0 := by
    rw [hflat]
    have : rows.length * (3 * k) = 3 * rows.length * k := by ring
    rw [this]
    exact Nat.mul_mod_right _ _
  have hdiv : rows.flatten.length / (3 * rows.length) = k := by
    rw [hflat]
    have : rows.length * (3 * k) = 3 * rows.length * k := by ring
    rw [this]
    exact Nat.mul_div_cancel_left _ (by omega)
  simp only [npReshapeRows3, hn, if_false, hmod, if_true, hdiv]
  rw [groupsOfSize_chunk3 k rows hu]

/-- Membership in the header yields a column index. -/
lemma colIndex_of_mem (name : List Char) : ∀ (hs : List (List Char)), name ∈ hs →
    ∃ i, colIndex name hs = some i
  | [], h => by cases h
  | a :: as, h => by
    by_cases ha : a = name
    · exact ⟨0, by simp [colIndex, ha]⟩
    · have hmem : name ∈ as := by
        rcases List.mem_cons.mp h with h' | h'
        · exact absurd h'.symm ha
        · exact h'
      obtain ⟨i, hi⟩ := colIndex_of_mem name as hmem
      exact ⟨i + 1, by simp [colIndex, ha, hi]⟩

/-- Evaluation of read_trajdump once the Time column and both reshapes succeed. -/
lemma read_trajdump_eq (tbl : Table) (ti : Nat) (P Q : List (List (List ℚ)))
    (hti : colIndex ("Time".toList) tbl.header = some ti)
    (hposR : npReshapeRows3
      (tbl.rows.map (filterByHeader (fun h => containsSub ['p', 'o', 's'] h) tbl.header)) = some P)
    (hmomR : npReshapeRows3
      (tbl.rows.map (filterByHeader (fun h => containsSub ['m', 'o', 'm'] h) tbl.header)) = some Q) :
    read_trajdump tbl = some
      { positions := P, momenta := Q,
        states := (tbl.rows.map
          (filterByHeader (fun h => containsSub ("StateID".toList) h) tbl.header)).map
            (fun r => r.map truncToInt),
        time := tbl.rows.map (fun r => r.getD ti 0) } := by
  simp only [read_trajdump, hti, hposR, hmomR]

/-- Claim C5: on a nonempty rectangular normalized table whose position block has
3N columns and momentum block 3M columns, read_trajdump succeeds; the positions
array has R rows of N triples (and momenta R rows of M triples), and flattening
row i restores exactly the selected position (momentum) columns of table row i in
their original order. -/
theorem C5_reshape (tbl : Table) (N M R : Nat)
    (hR : tbl.rows.length = R) (h1 : 1 ≤ R)
    (hTime : "Time".toList ∈ tbl.header)
    (hpos : ∀ r ∈ tbl.rows,
      (filterByHeader (fun h => containsSub ['p', 'o', 's'] h) tbl.header r).length = 3 * N)
    (hmom : ∀ r ∈ tbl.rows,
      (filterByHeader (fun h => containsSub ['m', 'o', 'm'] h) tbl.header r).length = 3 * M) :
    ∃ td, read_trajdump tbl = some td ∧
      td.positions.length = R ∧ td.momenta.length = R ∧
      (∀ p ∈ td.positions, p.length = N ∧ ∀ v ∈ p, v.length = 3) ∧
      (∀ p ∈ td.momenta, p.length = M ∧ ∀ v ∈ p, v.length = 3) ∧
      (∀ i, i < R →
        (td.positions.getD i []).flatten =
          filterByHeader (fun h => containsSub ['p', 'o', 's'] h) tbl.header
            (tbl.rows.getD i []) ∧
        (td.momenta.getD i []).flatten =
          filterByHeader (fun h => containsSub ['m', 'o', 'm'] h) tbl.header
            (tbl.rows.getD i [])) := by
  obtain ⟨ti, hti⟩ := colIndex_of_mem _ _ hTime
  have hne : tbl.rows ≠ [] := by
    intro h0; rw [h0] at hR; simp at hR; omega
  have hneP : tbl.rows.map (filterByHeader (fun h => containsSub ['p', 'o', 's'] h) tbl.header) ≠ [] := by
    simpa using hne
  have hneM : tbl.rows.map (filterByHeader (fun h => containsSub ['m', 'o', 'm'] h) tbl.header) ≠ [] := by
    simpa using hne
  have huP : ∀ r ∈ tbl.rows.map (filterByHeader (fun h => containsSub ['p', 'o', 's'] h) tbl.header),
      r.length = 3 * N := by
    intro r hr
    obtain ⟨x, hx, rfl⟩ := List.mem_map.mp hr
    exact hpos x hx
  have huM : ∀ r ∈ tbl.rows.map (filterByHeader (fun h => containsSub ['m', 'o', 'm'] h) tbl.header),
      r.length = 3 * M := by
    intro r hr
    obtain ⟨x, hx, rfl⟩ := List.mem_map.mp hr
    exact hmom x hx
  have hP := npReshapeRows3_uniform N _ hneP huP
  have hQ := npReshapeRows3_uniform M _ hneM huM
  refine ⟨_, read_trajdump_eq tbl ti _ _ hti hP hQ, ?_, ?_, ?_, ?_, ?_⟩
  · simp [hR]
  · simp [hR]
  · intro p hp
    simp only [List.map_map, List.mem_map, Function.comp] at hp
    obtain ⟨x, hx, rfl⟩ := hp
    constructor
    · rw [chunk3_length _ (by rw [hpos x hx]; omega), hpos x hx]
      omega
    · exact chunk3_mem _
  · intro p hp
    simp only [List.map_map, List.mem_map, Function.comp] at hp
    obtain ⟨x, hx, rfl⟩ := hp
    constructor
    · rw [chunk3_length _ (by rw [hmom x hx]; omega), hmom x hx]
      omega
    · exact chunk3_mem _
  · intro i hi
    have hi' : i < tbl.rows.length := by omega
    have hrowmem : tbl.rows.getD i [] ∈ tbl.rows := by
      rw [List.getD_eq_getElem _ _ hi']
      exact List.getElem_mem hi'
    constructor
    · have hmap : ((tbl.rows.map (filterByHeader (fun h => containsSub ['p', 'o', 's'] h) tbl.header)).map chunk3).getD i [] =
          chunk3 (filterByHeader (fun h => containsSub ['p', 'o', 's'] h) tbl.header (tbl.rows.getD i [])) := by
        rw [List.getD_eq_getElem _ _ (by simpa using hi'), List.getD_eq_getElem _ _ hi']
        simp
      rw [hmap]
      exact chunk3_flatten _ (by rw [hpos _ hrowmem]; omega)
    · have hmap : ((tbl.rows.map (filterByHeader (fun h => containsSub ['m', 'o', 'm'] h) tbl.header)).map chunk3).getD i [] =
          chunk3 (filterByHeader (fun h => containsSub ['m', 'o', 'm'] h) tbl.header (tbl.rows.getD i [])) := by
        rw [List.getD_eq_getElem _ _ (by simpa using hi'), List.getD_eq_getElem _ _ hi']
        simp
      rw [hmap]
      exact chunk3_flatten _ (by rw [hmom _ hrowmem]; omega)

/-- Witness for C5_reshape at a concrete one-row table with one atom. -/
theorem C5_witness :
    ∃ td, read_trajdump
      { header := ["Time".toList, "pos1".toList, "pos2".toList, "pos3".toList,
                   "mom1".toList, "mom2".toList, "mom3".toList],
        rows := [[0, 1, 2, 3, 4, 5, 6]] } = some td ∧
      td.positions.length = 1 ∧
      (td.positions.getD 0 []).flatten = [1, 2, 3] ∧
      (td.momenta.getD 0 []).flatten = [4, 5, 6] := by
  obtain ⟨td, heq, hlenP, _, _, _, hflat⟩ :=
    C5_reshape
      { header := ["Time".toList, "pos1".toList, "pos2".toList, "pos3".toList,
                   "mom1".toList, "mom2".toList, "mom3".toList],
        rows := [[0, 1, 2, 3, 4, 5, 6]] } 1 1 1 rfl (by omega) (by decide)
      (by decide) (by decide)
  obtain ⟨hp, hm⟩ := hflat 0 (by omega)
  refine ⟨td, heq, hlenP, ?_, ?_⟩
  · rw [hp]; decide
  · rw [hm]; decide

/-!
Claims about the topology parser (extract_masses_and_symbols).
-/

/-- Choice with an empty right argument. -/
lemma optOr_none_right (a : Option ℚ) : optOr a none = a := by
  cases a <;> rfl

/-- Lookup distributes over append as a first-some choice. -/
lemma alookup_append (k : List Char) : ∀ (xs ys : List (Line × ℚ)),
    alookup k (xs ++ ys) = optOr (alookup k xs) (alookup k ys)
  | [], ys => rfl
  | p :: ps, ys => by
    by_cases h : p.1 = k
    · simp [alookup, h, optOr]
    · simp [alookup, h, alookup_append k ps ys]

/-- Empty report has an empty active region. -/
lemma activeRegion_nil (reading : Bool) : activeRegion reading [] = [] := by
  cases reading <;> simp [activeRegion, beforePropagate, specRange]

/-- Active region vanishes at a sentinel line. -/
lemma activeRegion_cons_prop (l : Line) (ls : List Line) (reading : Bool)
    (hP : containsSub propagateMarker (pyStrip l) = true) :
    activeRegion reading (l :: ls) = [] := by
  cases reading <;>
    simp [activeRegion, beforePropagate, specRange, List.takeWhile_cons, hP]

/-- Active region across a particle-header line: in reading state the header joins
the region; out of reading state the header opens the region. -/
lemma activeRegion_cons_particle (l : Line) (ls : List Line)
    (hP : containsSub propagateMarker (pyStrip l) = false)
    (hQ : isPrefixChars particleMarker (pyStrip l) = true) :
    activeRegion true (l :: ls) = pyStrip l :: activeRegion true ls ∧
    activeRegion false (l :: ls) = activeRegion true ls := by
  constructor
  · simp [activeRegion, beforePropagate, List.takeWhile_cons, hP]
  · simp [activeRegion, specRange, beforePropagate, List.takeWhile_cons,
      List.dropWhile_cons, hP, hQ]

/-- Active region across an ordinary line: kept in reading state, skipped before
the first particle marker. -/
lemma activeRegion_cons_other (l : Line) (ls : List Line)
    (hP : containsSub propagateMarker (pyStrip l) = false)
    (hQ : isPrefixChars particleMarker (pyStrip l) = false) :
    activeRegion true (l :: ls) = pyStrip l :: activeRegion true ls ∧
    activeRegion false (l :: ls) = activeRegion false ls := by
  constructor
  · simp [activeRegion, beforePropagate, List.takeWhile_cons, hP]
  · simp [activeRegion, specRange, beforePropagate, List.takeWhile_cons,
      List.dropWhile_cons, hP, hQ]

/-- Invariant of the extraction loop: on success, the atom list grows by exactly
the number of Element: lines of the active region, and the final masses dict is
the initial dict extended, first-seen-wins, by the mass events of the active
region. -/
lemma extract_aux_spec : ∀ (ls : List Line) (masses : List (Line × ℚ))
    (atoms : List Line) (element : Option Line) (reading : Bool)
    (A : List Line) (M : List (Line × ℚ)),
    (reading = false → element = none) →
    extract_aux ls masses atoms element reading = some (A, M) →
    A.length = atoms.length + countElementLines (activeRegion reading ls) ∧
    (∀ key, alookup key M =
      optOr (alookup key masses)
        (alookup key (specMassEvents (activeRegion reading ls)
          (if reading then element else none)))) := by
  intro ls
  induction ls with
  | nil =>
    intro masses atoms element reading A M _ hrun
    simp only [extract_aux, Option.some.injEq, Prod.mk.injEq] at hrun
    obtain ⟨h1, h2⟩ := hrun
    subst h1; subst h2
    rw [activeRegion_nil]
    exact ⟨by simp [countElementLines], fun key => by
      simp [specMassEvents, alookup, optOr_none_right]⟩
  | cons l ls ih =>
    intro masses atoms element reading A M hre hrun
    simp only [extract_aux] at hrun
    by_cases hP : containsSub propagateMarker (pyStrip l) = true
    · rw [if_pos hP] at hrun
      simp only [Option.some.injEq, Prod.mk.injEq] at hrun
      obtain ⟨h1, h2⟩ := hrun
      subst h1; subst h2
      rw [activeRegion_cons_prop l ls reading hP]
      exact ⟨by simp [countElementLines], fun key => by
        simp [specMassEvents, alookup, optOr_none_right]⟩
    · have hP' : containsSub propagateMarker (pyStrip l) = false :=
        Bool.not_eq_true _ ▸ eq_false_of_ne_true hP
      rw [if_neg hP] at hrun
      by_cases hQ : isPrefixChars particleMarker (pyStrip l) = true
      · rw [if_pos hQ] at hrun
        obtain ⟨g1, g2⟩ := ih masses atoms element true A M (fun h => by cases h) hrun
        cases reading with
        | true =>
          obtain ⟨hr1, _⟩ := activeRegion_cons_particle l ls hP' hQ
          rw [hr1]
          constructor
          · rw [g1]
            simp [countElementLines, List.filter_cons, hQ]
          · intro key
            rw [g2 key]
            simp [specMassEvents, hQ]
        | false =>
          obtain ⟨_, hr2⟩ := activeRegion_cons_particle l ls hP' hQ
          rw [hr2]
          have hel : element = none := hre rfl
          subst hel
          exact ⟨g1, fun key => g2 key⟩
      · have hQ' : isPrefixChars particleMarker (pyStrip l) = false :=
          eq_false_of_ne_true hQ
        rw [if_neg hQ] at hrun
        cases reading with
        | false =>
          have hel : element = none := hre rfl
          subst hel
          rw [if_neg (by simp)] at hrun
          obtain ⟨g1, g2⟩ := ih masses atoms none false A M (fun _ => rfl) hrun
          obtain ⟨_, hr2⟩ := activeRegion_cons_other l ls hP' hQ'
          rw [hr2]
          exact ⟨g1, g2⟩
        | true =>
          rw [if_pos rfl] at hrun
          obtain ⟨hr1, _⟩ := activeRegion_cons_other l ls hP' hQ'
          rw [hr1]
          by_cases hE : containsSub elementMarker (pyStrip l) = true
          · rw [if_pos hE] at hrun
            cases hg : (pySplitWs (pyStrip l)).get? 1 with
            | none => simp only [hg] at hrun; cases hrun
            | some el =>
              simp only [hg] at hrun
              obtain ⟨g1, g2⟩ := ih masses (atoms ++ [el]) (some el) true A M
                (fun h => by cases h) hrun
              rw [List.get?_eq_getElem?] at hg
              constructor
              · rw [g1]
                simp [countElementLines, List.filter_cons, hQ', hE]
                omega
              · intro key
                rw [g2 key]
                simp [specMassEvents, hQ', hE, hg]
          · have hE' : containsSub elementMarker (pyStrip l) = false :=
              eq_false_of_ne_true hE
            rw [if_neg hE] at hrun
            by_cases hM : containsSub massMarker (pyStrip l) = true
            · rw [if_pos hM] at hrun
              cases element with
              | none =>
                obtain ⟨g1, g2⟩ := ih masses atoms none true A M (fun h => by cases h) hrun
                constructor
                · rw [g1]
                  simp [countElementLines, List.filter_cons, hQ', hE']
                · intro key
                  rw [g2 key]
                  simp [specMassEvents, hQ', hE', hM]
              | some el =>
                cases hg : (pySplitWs (pyStrip l)).get? 1 with
                | none => simp only [hg] at hrun; cases hrun
                | some tok =>
                  cases hf : pyFloatChars tok with
                  | none => simp only [hg, hf] at hrun; cases hrun
                  | some m =>
                    simp only [hg, hf] at hrun
                    obtain ⟨g1, g2⟩ := ih _ atoms (some el) true A M
                      (fun h => by cases h) hrun
                    rw [List.get?_eq_getElem?] at hg
                    constructor
                    · rw [g1]
                      simp [countElementLines, List.filter_cons, hQ', hE']
                    · intro key
                      rw [g2 key]
                      simp only [eq_self_iff_true, if_true]
                      have hev : specMassEvents (pyStrip l :: activeRegion true ls) (some el) =
                          (el, m) :: specMassEvents (activeRegion true ls) (some el) := by
                        simp [specMassEvents, hQ', hE', hM, hg, hf]
                      rw [hev]
                      by_cases hel : (alookup el masses).isSome
                      · rw [if_pos hel]
                        by_cases hk : el = key
                        · subst hk
                          obtain ⟨v, hv⟩ := Option.isSome_iff_exists.mp hel
                          simp [alookup, hv, optOr]
                        · have : alookup key [(el, m)] = none := by
                            simp [alookup, hk]
                          simp [alookup, hk]
                      · rw [if_neg hel]
                        have heln : alookup el masses = none :=
                          Option.not_isSome_iff_eq_none.mp hel
                        rw [alookup_append]
                        by_cases hk : el = key
                        · subst hk
                          simp [alookup, heln, optOr]
                        · simp [alookup, hk, optOr_none_right]
            · have hM' : containsSub massMarker (pyStrip l) = false :=
                eq_false_of_ne_true hM
              rw [if_neg hM] at hrun
              obtain ⟨g1, g2⟩ := ih masses atoms element true A M (fun h => by cases h) hrun
              constructor
              · rw [g1]
                simp [countElementLines, List.filter_cons, hQ', hE']
              · intro key
                rw [g2 key]
                simp [specMassEvents, hQ', hE', hM']

/-- Claim C4: when extract_masses_and_symbols succeeds on a report in which no
particle-header line itself carries the Element: marker, the returned atom list has
exactly one entry per Element: line strictly between the first Particle # marker
and the Propagate until: sentinel (duplicates included), and the returned mass
mapping answers every element lookup with the first-seen mass event of that range;
particle blocks after the sentinel contribute nothing, the range ending there. -/
theorem C4_topology (lines : List Line) (A : List Line) (M : List (Line × ℚ))
    (hrun : extract_masses_and_symbols lines = some (A, M))
    (hsep : ∀ l ∈ lines, isPrefixChars particleMarker (pyStrip l) = true →
      containsSub elementMarker (pyStrip l) = false) :
    A.length =
      ((specRange lines).filter (fun l => containsSub elementMarker l)).length ∧
    ∀ key, alookup key M = alookup key (specMassEvents (specRange lines) none) := by
  obtain ⟨g1, g2⟩ := extract_aux_spec lines [] [] none false A M (fun _ => rfl) hrun
  have hsub : ∀ x ∈ specRange lines,
      isPrefixChars particleMarker x = true → containsSub elementMarker x = false := by
    intro x hx
    have hx1 : x ∈ (beforePropagate lines).dropWhile
        (fun l => !isPrefixChars particleMarker l) :=
      (List.drop_sublist 1 _).subset hx
    have hx2 : x ∈ beforePropagate lines :=
      (List.dropWhile_sublist _).subset hx1
    have hx3 : x ∈ lines.map pyStrip :=
      (List.takeWhile_sublist _).subset hx2
    obtain ⟨l0, hl0, rfl⟩ := List.mem_map.mp hx3
    exact hsep l0 hl0
  constructor
  · rw [g1]
    simp only [activeRegion, if_neg Bool.false_ne_true, List.length_nil, Nat.zero_add]
    rw [countElementLines, List.filter_congr]
    intro x hx
    by_cases hpx : isPrefixChars particleMarker x = true
    · simp [hpx, hsub x hx hpx]
    · simp [eq_false_of_ne_true hpx]
  · intro key
    rw [g2 key]
    simp only [activeRegion, if_neg Bool.false_ne_true, alookup, optOr]

/-- Witness for C4_topology at the concrete witness report: the atom list C, H has
length equal to the Element: line count of the range, and the mass of C is its
first-seen mass event. -/
theorem C4_witness :
    (["C".toList, "H".toList] : List Line).length =
      ((specRange topoReportW).filter (fun l => containsSub elementMarker l)).length ∧
    alookup ("C".toList) [(("C".toList : Line), (12 : ℚ)), ("H".toList, 1)] =
      alookup ("C".toList) (specMassEvents (specRange topoReportW) none) := by
  obtain ⟨h1, h2⟩ := C4_topology topoReportW ["C".toList, "H".toList]
    [("C".toList, 12), ("H".toList, 1)] (by decide) (by decide)
  exact ⟨h1, h2 ("C".toList)⟩

/-!
Claims about the table normalizer (create_csv_from_aims_traj_dump).
-/

/-- Digit characters decode to their values. -/
lemma digitVal_digitChar : ∀ k, k < 10 → digitVal (digitChar k) = k := by decide

/-- Digit characters are digits. -/
lemma digitChar_isDigit : ∀ k, k < 10 → (digitChar k).isDigit = true := by decide

/-- Rendering does not depend on the fuel, provided there is enough of it. -/
lemma natToDigitsAux_congr : ∀ (f1 f2 n : Nat), n < f1 → n < f2 →
    natToDigitsAux f1 n = natToDigitsAux f2 n
  | f1 + 1, f2 + 1, n, h1, h2 => by
    simp only [natToDigitsAux]
    by_cases hn : n < 10
    · rw [if_pos hn, if_pos hn]
    · rw [if_neg hn, if_neg hn]
      have hd : n / 10 < n := Nat.div_lt_self (by omega) (by omega)
      rw [natToDigitsAux_congr f1 f2 (n / 10) (by omega) (by omega)]

/-- Unfolding equation for the decimal rendering. -/
lemma natToDigits_eq (n : Nat) : natToDigits n =
    if n < 10 then [digitChar n] else natToDigits (n / 10) ++ [digitChar (n % 10)] := by
  rw [natToDigits, natToDigitsAux]
  by_cases hn : n < 10
  · rw [if_pos hn, if_pos hn]
  · rw [if_neg hn, if_neg hn, natToDigits]
    have hd : n / 10 < n := Nat.div_lt_self (by omega) (by omega)
    rw [natToDigitsAux_congr n (n / 10 + 1) (n / 10) (by omega) (by omega)]

/-- Every character of a rendered natural number is a digit character. -/
lemma natToDigits_chars (n : Nat) : ∀ c ∈ natToDigits n, ∃ k, k < 10 ∧ c = digitChar k := by
  induction n using Nat.strong_induction_on with
  | _ n ih =>
    rw [natToDigits_eq]
    by_cases hn : n < 10
    · rw [if_pos hn]
      intro c hc
      simp only [List.mem_singleton] at hc
      exact ⟨n, hn, hc⟩
    · rw [if_neg hn]
      intro c hc
      rcases List.mem_append.mp hc with h | h
      · exact ih (n / 10) (Nat.div_lt_self (by omega) (by omega)) c h
      · simp only [List.mem_singleton] at h
        exact ⟨n % 10, Nat.mod_lt _ (by omega), h⟩

/-- Rendered natural numbers are nonempty strings. -/
lemma natToDigits_ne_nil (n : Nat) : natToDigits n ≠ [] := by
  rw [natToDigits_eq]
  by_cases hn : n < 10
  · rw [if_pos hn]; simp
  · rw [if_neg hn]; simp

/-- Rendered natural numbers consist of digits. -/
lemma natToDigits_allDigits (n : Nat) : allDigits (natToDigits n) = true := by
  rw [allDigits, List.all_eq_true]
  intro c hc
  obtain ⟨k, hk, rfl⟩ := natToDigits_chars n c hc
  exact digitChar_isDigit k hk

/-- Folding digits from a seed scales the seed by the digit count. -/
lemma digitsVal_foldl_general : ∀ (cs : List Char) (a : Nat),
    List.foldl (fun a c => a * 10 + digitVal c) a cs = a * 10 ^ cs.length + digitsVal cs
  | [], a => by simp [digitsVal]
  | c :: cs, a => by
    simp only [List.foldl_cons, List.length_cons, digitsVal]
    rw [digitsVal_foldl_general cs (a * 10 + digitVal c),
        digitsVal_foldl_general cs (0 * 10 + digitVal c)]
    ring

/-- Value of an appended digit. -/
lemma digitsVal_append_single (cs : List Char) (c : Char) :
    digitsVal (cs ++ [c]) = digitsVal cs * 10 + digitVal c := by
  simp [digitsVal, List.foldl_append]

/-- Decoding inverts rendering. -/
lemma digitsVal_natToDigits (n : Nat) : digitsVal (natToDigits n) = n := by
  induction n using Nat.strong_induction_on with
  | _ n ih =>
    rw [natToDigits_eq]
    by_cases hn : n < 10
    · rw [if_pos hn]
      simp [digitsVal, digitVal_digitChar n hn]
    · rw [if_neg hn, digitsVal_append_single,
        ih (n / 10) (Nat.div_lt_self (by omega) (by omega)),
        digitVal_digitChar _ (Nat.mod_lt _ (by omega))]
      omega

/-- Leading zeros do not change the decoded value. -/
lemma digitsVal_replicate_zero : ∀ (j : Nat) (ds : List Char),
    digitsVal (List.replicate j '0' ++ ds) = digitsVal ds
  | 0, ds => rfl
  | j + 1, ds => by
    simp only [List.replicate_succ, List.cons_append, digitsVal, List.foldl_cons]
    have : (0 * 10 + digitVal '0') = 0 := by decide
    rw [this]
    exact digitsVal_replicate_zero j ds

/-- Bound on the digit count of a bounded number. -/
lemma natToDigits_length_le : ∀ (k n : Nat), 1 ≤ k → n < 10 ^ k →
    (natToDigits n).length ≤ k
  | k, n, hk, hn => by
    rw [natToDigits_eq]
    by_cases h10 : n < 10
    · rw [if_pos h10]; simpa using hk
    · rw [if_neg h10]
      have hk2 : 2 ≤ k := by
        by_contra hlt
        have : k = 1 := by omega
        subst this
        simp at hn
        omega
      have hrec : (natToDigits (n / 10)).length ≤ k - 1 := by
        apply natToDigits_length_le (k - 1) (n / 10) (by omega)
        have : 10 ^ k = 10 ^ (k - 1) * 10 := by
          rw [← pow_succ]
          congr 1
          omega
        rw [this] at hn
        omega
      simp only [List.length_append, List.length_cons, List.length_nil]
      omega

/-- A take of elements all satisfying the predicate passes through an append. -/
lemma takeWhile_append_all {p : Char → Bool} : ∀ (xs ys : List Char),
    (∀ x ∈ xs, p x = true) → List.takeWhile p (xs ++ ys) = xs ++ List.takeWhile p ys
  | [], ys, _ => by simp
  | x :: xs, ys, h => by
    have hx : p x = true := h x (by simp)
    simp only [List.cons_append, List.takeWhile_cons, hx, if_true]
    rw [takeWhile_append_all xs ys (fun y hy => h y (by simp [hy]))]

/-- A drop of elements all satisfying the predicate passes through an append. -/
lemma dropWhile_append_all {p : Char → Bool} : ∀ (xs ys : List Char),
    (∀ x ∈ xs, p x = true) → List.dropWhile p (xs ++ ys) = List.dropWhile p ys
  | [], ys, _ => by simp
  | x :: xs, ys, h => by
    have hx : p x = true := h x (by simp)
    simp only [List.cons_append, List.dropWhile_cons, hx, if_true]
    exact dropWhile_append_all xs ys (fun y hy => h y (by simp [hy]))

/-- Span of a dotted string at the first dot, when the prefix has no dot. -/
lemma span_at_dot (xs ys : List Char) (h : ∀ x ∈ xs, x ≠ '.') :
    List.span (fun c => c ≠ '.') (xs ++ '.' :: ys) = (xs, '.' :: ys) := by
  have hp : ∀ x ∈ xs, (fun c => decide (c ≠ '.')) x = true := by
    intro x hx
    simpa using h x hx
  rw [List.span_eq_take_drop]
  rw [takeWhile_append_all xs ('.' :: ys) hp, dropWhile_append_all xs ('.' :: ys) hp]
  simp [List.takeWhile_cons, List.dropWhile_cons]

/-- Digit characters are not dots, signs, commas or whitespace. -/
lemma digitChar_ne (k : Nat) (hk : k < 10) :
    digitChar k ≠ '.' ∧ digitChar k ≠ ',' ∧ digitChar k ≠ '-' ∧ digitChar k ≠ '+' ∧
      pyIsSpace (digitChar k) = false := by
  revert k
  decide

/-- Zero-padded fractional strings are digits only. -/
lemma padDigits_allDigits (k m : Nat) : allDigits (padDigits k m) = true := by
  rw [padDigits, allDigits, List.all_eq_true]
  intro c hc
  rcases List.mem_append.mp hc with h | h
  · rw [List.eq_of_mem_replicate h]; decide
  · obtain ⟨j, hj, rfl⟩ := natToDigits_chars m c h
    exact digitChar_isDigit j hj

/-- Value decoded from a zero-padded fractional rendering. -/
lemma digitsVal_padDigits (k m : Nat) : digitsVal (padDigits k m) = m := by
  rw [padDigits, digitsVal_replicate_zero, digitsVal_natToDigits]

/-- Length of the zero-padded fractional rendering. -/
lemma padDigits_length (k m : Nat) (hk : 1 ≤ k) (hm : m < 10 ^ k) :
    (padDigits k m).length = k := by
  have hle : (natToDigits m).length ≤ k := natToDigits_length_le k m hk hm
  rw [padDigits]
  simp only [List.length_append, List.length_replicate]
  omega

/-- Parse of an unsigned decimal rendering integer-dot-fraction. -/
lemma parseUnsignedDec_render (I F k : Nat) (hk : 1 ≤ k) (hF : F < 10 ^ k) :
    parseUnsignedDec (natToDigits I ++ '.' :: padDigits k F) =
      some ((I : ℚ) + (F : ℚ) / (10 : ℚ) ^ k) := by
  have hnd : ∀ x ∈ natToDigits I, x ≠ '.' := by
    intro x hx
    obtain ⟨j, hj, rfl⟩ := natToDigits_chars I x hx
    exact (digitChar_ne j hj).1
  rw [parseUnsignedDec, span_at_dot _ _ hnd]
  have hne : (natToDigits I).isEmpty = false := by
    cases h : natToDigits I with
    | nil => exact absurd h (natToDigits_ne_nil I)
    | cons a as => rfl
  simp only [hne, Bool.false_and, Bool.false_eq_true, if_false,
    natToDigits_allDigits, padDigits_allDigits, Bool.and_self, if_true,
    digitsVal_natToDigits, digitsVal_padDigits, padDigits_length k F hk hF]

/-- Characters of the float rendering: sign, digits and one dot only. -/
lemma renderFloat_chars (q : ℚ) : ∀ c ∈ renderFloat q,
    c = '-' ∨ c = '.' ∨ ∃ k, k < 10 ∧ c = digitChar k := by
  intro c hc
  rw [renderFloat] at hc
  simp only [List.mem_append, List.mem_cons] at hc
  rcases hc with (h | h) | h | h
  · left
    split at h
    · simpa using h
    · simp at h
  · right; right
    exact natToDigits_chars _ c h
  · right; left; exact h
  · right; right
    rw [padDigits] at h
    rcases List.mem_append.mp h with h2 | h2
    · refine ⟨0, by omega, ?_⟩
      rw [List.eq_of_mem_replicate h2]
      rfl
    · exact natToDigits_chars _ c h2

/-- Multiplying a rational by its denominator clears the denominator. -/
lemma rat_mul_den (q : ℚ) : q * (q.den : ℚ) = (q.num : ℚ) := by
  have hden : ((q.den : ℚ)) ≠ 0 := by
    exact_mod_cast q.den_ne_zero
  nth_rewrite 1 [← Rat.num_div_den q]
  rw [div_mul_cancel₀ _ hden]

/-- A rational whose denominator divides 10 to the k scales to an integer. -/
lemma mul_pow_den_one_of_dvd (q : ℚ) (k : Nat) (h : q.den ∣ 10 ^ k) :
    (q * (10 : ℚ) ^ k).den = 1 := by
  obtain ⟨c, hc⟩ := h
  have h10 : ((10 : ℚ) ^ k) = ((q.den : ℚ)) * (c : ℚ) := by
    exact_mod_cast congrArg (fun n : ℕ => (n : ℚ)) hc
  rw [h10, ← mul_assoc, rat_mul_den]
  have hz : (q.num : ℚ) * (c : ℚ) = ((q.num * (c : ℤ) : ℤ) : ℚ) := by push_cast; ring
  rw [hz, Rat.den_intCast]

/-- Conversely, if scaling by 10 to the L yields an integer then the denominator
divides 10 to the L. -/
lemma den_dvd_of_int_mul (q : ℚ) (L : Nat) (h : (q * (10 : ℚ) ^ L).den = 1) :
    q.den ∣ 10 ^ L := by
  have hcast : ((q * (10 : ℚ) ^ L).num : ℚ) = q * (10 : ℚ) ^ L :=
    (Rat.den_eq_one_iff _).mp h
  have h10 : ((10 : ℚ) ^ L) ≠ 0 := by positivity
  have hq : q = Rat.divInt (q * (10 : ℚ) ^ L).num ((10 : ℤ) ^ L) := by
    rw [Rat.divInt_eq_div, hcast]
    push_cast
    field_simp
  have hdvd := Rat.den_dvd (q * (10 : ℚ) ^ L).num ((10 : ℤ) ^ L)
  rw [← hq] at hdvd
  exact_mod_cast hdvd

/-- Divisor of a power of ten divides the power of ten with its own exponent. -/
lemma dvd_ten_pow_self : ∀ (n : ℕ), (∃ L, n ∣ 10 ^ L) → n ∣ 10 ^ n := by
  intro n
  induction n using Nat.strong_induction_on with
  | _ n ih =>
    rintro ⟨L, hdvd⟩
    by_cases h1 : n = 1
    · subst h1; exact one_dvd _
    by_cases h0 : n = 0
    · subst h0
      have h10 : (10 : ℕ) ^ L ≠ 0 := by positivity
      exact absurd (Nat.eq_zero_of_zero_dvd hdvd) h10
    obtain ⟨p, hp, hpn⟩ := Nat.exists_prime_and_dvd h1
    have hp10 : p ∣ 10 := hp.dvd_of_dvd_pow (hpn.trans hdvd)
    have hpm : n / p * p = n := Nat.div_mul_cancel hpn
    have hmn : n / p < n := Nat.div_lt_self (by omega) hp.one_lt
    have hmd : n / p ∣ n := ⟨p, hpm.symm⟩
    have hrec : n / p ∣ 10 ^ (n / p) := ih (n / p) hmn ⟨L, hmd.trans hdvd⟩
    have hm1 : n / p ∣ 10 ^ (n - 1) := hrec.trans (pow_dvd_pow 10 (by omega))
    have hmul : p * (n / p) ∣ 10 * 10 ^ (n - 1) := mul_dvd_mul hp10 hm1
    have hpow : 10 * 10 ^ (n - 1) = 10 ^ n := by
      rw [← pow_succ']
      congr 1
      omega
    rw [hpow] at hmul
    have hfin : p * (n / p) = n := by rw [mul_comm]; exact hpm
    rwa [hfin] at hmul

/-- Dropping with a predicate false on every element changes nothing. -/
lemma dropWhile_all_false {p : Char → Bool} (cs : List Char)
    (h : ∀ c ∈ cs, p c = false) : cs.dropWhile p = cs := by
  cases cs with
  | nil => rfl
  | cons c cs' =>
    rw [List.dropWhile_cons, h c (by simp)]
    simp

/-- Stripping a string with no outer whitespace changes nothing. -/
lemma pyStrip_of_no_ws (cs : List Char) (h : ∀ c ∈ cs, pyIsSpace c = false) :
    pyStrip cs = cs := by
  rw [pyStrip, dropWhile_all_false cs h,
    dropWhile_all_false cs.reverse (fun c hc => h c (List.mem_reverse.mp hc)),
    List.reverse_reverse]

/-- Float renderings contain no whitespace. -/
lemma renderFloat_no_ws (q : ℚ) : ∀ c ∈ renderFloat q, pyIsSpace c = false := by
  intro c hc
  rcases renderFloat_chars q c hc with rfl | rfl | ⟨k, hk, rfl⟩
  · decide
  · decide
  · exact (digitChar_ne k hk).2.2.2.2

/-- Reduction of the float parser on an unsigned stripped string. -/
lemma pyFloatChars_unsigned (c : Char) (rest : List Char)
    (hs : pyStrip (c :: rest) = c :: rest) (h1 : c ≠ '+') (h2 : c ≠ '-') :
    pyFloatChars (c :: rest) = parseUnsignedDec (c :: rest) := by
  simp only [pyFloatChars, hs, if_neg h1, if_neg h2]

/-- Reduction of the float parser on a negated stripped string. -/
lemma pyFloatChars_negative (rest : List Char)
    (hs : pyStrip ('-' :: rest) = '-' :: rest) :
    pyFloatChars ('-' :: rest) = (parseUnsignedDec rest).map (fun q => -q) := by
  simp only [pyFloatChars, hs, if_neg (by decide : ¬('-' : Char) = '+')]
  rw [if_pos trivial]

/-- Value identity behind the decimal rendering: integer and fractional parts of
the scaled magnitude recombine to the original rational. -/
lemma render_value_eq (q : ℚ) (m : Nat) (hm : (m : ℚ) = q * (10 : ℚ) ^ q.den) :
    ((m / 10 ^ q.den : ℕ) : ℚ) + ((m % 10 ^ q.den : ℕ) : ℚ) / (10 : ℚ) ^ q.den = q := by
  have h10 : ((10 : ℚ) ^ q.den) ≠ 0 := by positivity
  have hnat : m / 10 ^ q.den * 10 ^ q.den + m % 10 ^ q.den = m := by
    rw [Nat.mul_comm]
    exact Nat.div_add_mod m (10 ^ q.den)
  have hsplit : ((m / 10 ^ q.den : ℕ) : ℚ) * (10 : ℚ) ^ q.den + ((m % 10 ^ q.den : ℕ) : ℚ) =
      (m : ℚ) := by
    exact_mod_cast congrArg (fun n : ℕ => (n : ℚ)) hnat
  apply mul_right_cancel₀ h10
  rw [add_mul, div_mul_cancel₀ _ h10, hsplit, hm]

/-- Round trip for the float rendering of a decimal-representable rational. -/
lemma pyFloatChars_renderFloat (q : ℚ) (hq : (q * (10 : ℚ) ^ q.den).den = 1) :
    pyFloatChars (renderFloat q) = some q := by
  have hstrip : pyStrip (renderFloat q) = renderFloat q :=
    pyStrip_of_no_ws _ (renderFloat_no_ws q)
  have hk1 : 1 ≤ q.den := q.den_pos
  have hcast : ((q * (10 : ℚ) ^ q.den).num : ℚ) = q * (10 : ℚ) ^ q.den :=
    (Rat.den_eq_one_iff _).mp hq
  have hFlt : (q * (10 : ℚ) ^ q.den).num.natAbs % 10 ^ q.den < 10 ^ q.den :=
    Nat.mod_lt _ (by positivity)
  by_cases hneg : q < 0
  · have hrf : renderFloat q =
        '-' :: (natToDigits ((q * (10 : ℚ) ^ q.den).num.natAbs / 10 ^ q.den) ++
          '.' :: padDigits q.den ((q * (10 : ℚ) ^ q.den).num.natAbs % 10 ^ q.den)) := by
      rw [renderFloat, if_pos hneg]
      rfl
    rw [hrf] at hstrip ⊢
    rw [pyFloatChars_negative _ hstrip, parseUnsignedDec_render _ _ _ hk1 hFlt]
    have hprod : q * (10 : ℚ) ^ q.den < 0 :=
      mul_neg_of_neg_of_pos hneg (by positivity)
    have hm : (((q * (10 : ℚ) ^ q.den).num.natAbs : ℕ) : ℚ) = (-q) * (10 : ℚ) ^ q.den := by
      rw [Int.cast_natAbs, Int.cast_abs, hcast, abs_of_neg hprod]
      ring
    have hden_neg : (-q).den = q.den := by simp
    have := render_value_eq (-q) ((q * (10 : ℚ) ^ q.den).num.natAbs)
      (by rw [hden_neg, hm])
    rw [hden_neg] at this
    rw [this]
    simp
  · push_neg at hneg
    have hrf : renderFloat q =
        natToDigits ((q * (10 : ℚ) ^ q.den).num.natAbs / 10 ^ q.den) ++
          '.' :: padDigits q.den ((q * (10 : ℚ) ^ q.den).num.natAbs % 10 ^ q.den) := by
      rw [renderFloat, if_neg (not_lt.mpr hneg)]
      rfl
    cases hI : natToDigits ((q * (10 : ℚ) ^ q.den).num.natAbs / 10 ^ q.den) with
    | nil => exact absurd hI (natToDigits_ne_nil _)
    | cons c cs' =>
      have hc : ∃ k, k < 10 ∧ c = digitChar k :=
        natToDigits_chars _ c (by rw [hI]; simp)
      obtain ⟨k, hk, rfl⟩ := hc
      have hrf2 : renderFloat q = digitChar k :: (cs' ++
          '.' :: padDigits q.den ((q * (10 : ℚ) ^ q.den).num.natAbs % 10 ^ q.den)) := by
        rw [hrf, hI]
        rfl
      rw [hrf2] at hstrip ⊢
      rw [pyFloatChars_unsigned _ _ hstrip (digitChar_ne k hk).2.2.2.1 (digitChar_ne k hk).2.2.1]
      have hback : digitChar k :: (cs' ++
          '.' :: padDigits q.den ((q * (10 : ℚ) ^ q.den).num.natAbs % 10 ^ q.den)) =
          natToDigits ((q * (10 : ℚ) ^ q.den).num.natAbs / 10 ^ q.den) ++
          '.' :: padDigits q.den ((q * (10 : ℚ) ^ q.den).num.natAbs % 10 ^ q.den) := by
        rw [hI]
        rfl
      rw [hback, parseUnsignedDec_render _ _ _ hk1 hFlt]
      have hprod : 0 ≤ q * (10 : ℚ) ^ q.den := by positivity
      have hm : (((q * (10 : ℚ) ^ q.den).num.natAbs : ℕ) : ℚ) = q * (10 : ℚ) ^ q.den := by
        rw [Int.cast_natAbs, Int.cast_abs, hcast, abs_of_nonneg hprod]
      rw [render_value_eq q _ hm]

/-- Integer renderings contain no whitespace. -/
lemma strOfInt_chars (z : ℤ) : ∀ c ∈ strOfInt z,
    c = '-' ∨ ∃ k, k < 10 ∧ c = digitChar k := by
  intro c hc
  rw [strOfInt] at hc
  rcases List.mem_append.mp hc with h | h
  · left
    split at h
    · simpa using h
    · simp at h
  · right
    exact natToDigits_chars _ c h

/-- Round trip for the integer rendering. -/
lemma pyIntChars_strOfInt (z : ℤ) : pyIntChars (strOfInt z) = some z := by
  have hstrip : pyStrip (strOfInt z) = strOfInt z := by
    apply pyStrip_of_no_ws
    intro c hc
    rcases strOfInt_chars z c hc with rfl | ⟨k, hk, rfl⟩
    · decide
    · exact (digitChar_ne k hk).2.2.2.2
  have hparse : parseUnsignedInt (natToDigits z.natAbs) = some ((z.natAbs : ℤ)) := by
    rw [parseUnsignedInt]
    have hne : (natToDigits z.natAbs).isEmpty = false := by
      cases h : natToDigits z.natAbs with
      | nil => exact absurd h (natToDigits_ne_nil _)
      | cons a as => rfl
    rw [hne]
    simp only [Bool.false_eq_true, if_false, natToDigits_allDigits _, if_true,
      digitsVal_natToDigits]
  by_cases hz : z < 0
  · have hrf : strOfInt z = '-' :: natToDigits z.natAbs := by
      rw [strOfInt, if_pos hz]
      rfl
    rw [hrf] at hstrip ⊢
    simp only [pyIntChars, hstrip, if_neg (by decide : ¬('-' : Char) = '+')]
    rw [if_pos trivial, hparse]
    simp only [Option.map_some']
    congr 1
    omega
  · have hrf : strOfInt z = natToDigits z.natAbs := by
      rw [strOfInt, if_neg hz]
      rfl
    cases hI : natToDigits z.natAbs with
    | nil => exact absurd hI (natToDigits_ne_nil _)
    | cons c cs' =>
      obtain ⟨k, hk, rfl⟩ := natToDigits_chars _ c (by rw [hI]; simp)
      rw [hrf, hI] at hstrip ⊢
      simp only [pyIntChars, hstrip, if_neg (digitChar_ne k hk).2.2.2.1,
        if_neg (digitChar_ne k hk).2.2.1]
      rw [← hI, hparse]
      congr 1
      omega

/-- Substring test for a single character is membership. -/
lemma containsSub_single_iff (c : Char) : ∀ (cs : List Char),
    containsSub [c] cs = true ↔ c ∈ cs
  | [] => by simp [containsSub, isPrefixChars]
  | x :: cs => by
    rw [containsSub]
    simp [isPrefixChars, containsSub_single_iff c cs]

/-- Integer renderings contain no decimal point. -/
lemma strOfInt_no_dot (z : ℤ) : containsSub ['.'] (strOfInt z) = false := by
  rw [← Bool.not_eq_true, containsSub_single_iff]
  intro hmem
  rcases strOfInt_chars z _ hmem with h | ⟨k, hk, h⟩
  · cases h
  · exact (digitChar_ne k hk).1 h.symm

/-- Float renderings contain a decimal point. -/
lemma renderFloat_has_dot (q : ℚ) : containsSub ['.'] (renderFloat q) = true := by
  rw [containsSub_single_iff, renderFloat]
  simp

/-- Rendered fields contain no comma. -/
lemma renderField_no_comma (v : PyNum) : ∀ c ∈ renderField v, c ≠ ',' := by
  intro c hc
  cases v with
  | pint z =>
    rcases strOfInt_chars z c hc with rfl | ⟨k, hk, rfl⟩
    · decide
    · exact (digitChar_ne k hk).2.1
  | pfloat q =>
    rcases renderFloat_chars q c hc with rfl | rfl | ⟨k, hk, rfl⟩
    · decide
    · decide
    · exact (digitChar_ne k hk).2.1

/-- Every successfully parsed unsigned decimal is decimal-representable. -/
lemma parseUnsignedDec_decRep (cs : List Char) (q : ℚ)
    (h : parseUnsignedDec cs = some q) : ∃ L, (q * (10 : ℚ) ^ L).den = 1 := by
  cases hsp : List.span (fun c => c ≠ '.') cs with
  | mk ip tail =>
    cases tail with
    | nil =>
      simp only [parseUnsignedDec, hsp] at h
      split at h
      · cases h
      split at h
      · simp only [Option.some.injEq] at h
        refine ⟨0, ?_⟩
        rw [← h, pow_zero, mul_one, Rat.den_natCast]
      · cases h
    | cons d fp =>
      simp only [parseUnsignedDec, hsp] at h
      split at h
      · cases h
      split at h
      · simp only [Option.some.injEq] at h
        refine ⟨fp.length, ?_⟩
        rw [← h]
        have h10 : ((10 : ℚ) ^ fp.length) ≠ 0 := by positivity
        have hval : ((digitsVal ip : ℚ) + (digitsVal fp : ℚ) / (10 : ℚ) ^ fp.length) *
            (10 : ℚ) ^ fp.length =
            ((digitsVal ip * 10 ^ fp.length + digitsVal fp : ℕ) : ℚ) := by
          push_cast
          field_simp
        rw [hval, Rat.den_natCast]
      · cases h

/-- Every successfully parsed float literal is decimal-representable. -/
lemma pyFloatChars_decRep (cs : List Char) (q : ℚ)
    (h : pyFloatChars cs = some q) : ∃ L, (q * (10 : ℚ) ^ L).den = 1 := by
  cases hs : pyStrip cs with
  | nil => simp only [pyFloatChars, hs] at h; cases h
  | cons c r =>
    simp only [pyFloatChars, hs] at h
    by_cases h1 : c = '+'
    · rw [if_pos h1] at h
      exact parseUnsignedDec_decRep r q h
    · rw [if_neg h1] at h
      by_cases h2 : c = '-'
      · rw [if_pos h2] at h
        cases hp : parseUnsignedDec r with
        | none => rw [hp] at h; cases h
        | some q0 =>
          rw [hp] at h
          simp only [Option.map_some', Option.some.injEq] at h
          obtain ⟨L, hL⟩ := parseUnsignedDec_decRep r q0 hp
          refine ⟨L, ?_⟩
          rw [← h]
          have hneg : (-q0) * (10 : ℚ) ^ L = -(q0 * (10 : ℚ) ^ L) := by ring
          rw [hneg]
          have habs : (-(q0 * (10 : ℚ) ^ L)).den = (q0 * (10 : ℚ) ^ L).den := by simp
          rw [habs, hL]
      · rw [if_neg h2] at h
        exact parseUnsignedDec_decRep (c :: r) q h

/-- Per-field round trip: a field value obtained by the typing rule re-parses from
its rendering to the same typed value. -/
lemma parseField_renderField (cs : List Char) (v : PyNum)
    (h : parseField cs = some v) : parseField (renderField v) = some v := by
  cases v with
  | pint z =>
    rw [renderField, parseField]
    simp only [strOfInt_no_dot, Bool.false_eq_true, if_false, pyIntChars_strOfInt,
      Option.map_some']
  | pfloat q =>
    have hq : pyFloatChars cs = some q := by
      rw [parseField] at h
      split at h
      · cases hp : pyFloatChars cs with
        | none => rw [hp] at h; cases h
        | some q0 =>
          rw [hp] at h
          simp only [Option.map_some', Option.some.injEq, PyNum.pfloat.injEq] at h
          rw [h]
      · cases hp : pyIntChars cs with
        | none => rw [hp] at h; cases h
        | some z0 =>
          rw [hp] at h
          simp at h
    obtain ⟨L, hL⟩ := pyFloatChars_decRep cs q hq
    have hdvd : q.den ∣ 10 ^ q.den :=
      dvd_ten_pow_self q.den ⟨L, den_dvd_of_int_mul q L hL⟩
    have hrep : (q * (10 : ℚ) ^ q.den).den = 1 := mul_pow_den_one_of_dvd q q.den hdvd
    rw [renderField, parseField]
    simp only [renderFloat_has_dot, if_true, pyFloatChars_renderFloat q hrep,
      Option.map_some']

/-- Splitting passes over a separator-free prefix, accumulating it. -/
lemma splitOnCharAux_no_sep (sep : Char) : ∀ (f cs acc : List Char),
    (∀ c ∈ f, c ≠ sep) →
    splitOnCharAux sep (f ++ cs) acc = splitOnCharAux sep cs (f.reverse ++ acc)
  | [], cs, acc, _ => by simp
  | c :: f, cs, acc, h => by
    have hc : ¬(c = sep) := h c (by simp)
    simp only [List.cons_append, splitOnCharAux, if_neg hc, List.append_eq]
    rw [splitOnCharAux_no_sep sep f cs (c :: acc) (fun x hx => h x (by simp [hx]))]
    congr 1
    simp

/-- Splitting on commas inverts the comma join of nonempty comma-free fields. -/
lemma splitOnChar_csvJoin : ∀ (fields : List (List Char)), fields ≠ [] →
    (∀ f ∈ fields, ∀ c ∈ f, c ≠ ',') →
    splitOnChar ',' (csvJoin fields) = fields
  | [], hne, _ => absurd rfl hne
  | [f], _, hnc => by
    have h1 : csvJoin [f] = f := rfl
    rw [h1, splitOnChar, ← List.append_nil f,
      splitOnCharAux_no_sep ',' f [] [] (fun c hc => hnc f (by simp) c hc)]
    simp [splitOnCharAux]
  | f :: g :: fs, _, hnc => by
    have h1 : csvJoin (f :: g :: fs) = f ++ ',' :: csvJoin (g :: fs) := rfl
    rw [h1, splitOnChar,
      splitOnCharAux_no_sep ',' f (',' :: csvJoin (g :: fs)) []
        (fun c hc => hnc f (by simp) c hc)]
    simp only [splitOnCharAux]
    rw [if_pos trivial]
    simp only [List.append_nil, List.reverse_reverse]
    congr 1
    exact splitOnChar_csvJoin (g :: fs) (by simp)
      (fun x hx c hc => hnc x (by simp [hx]) c hc)

/-- Conversion success forces equal lengths. -/
lemma mapOpt_length {a b : Type} (f : a → Option b) : ∀ (xs : List a) (ys : List b),
    mapOpt f xs = some ys → ys.length = xs.length
  | [], ys, h => by
    simp only [mapOpt, Option.some.injEq] at h
    rw [← h]
    rfl
  | x :: xs, ys, h => by
    simp only [mapOpt] at h
    cases hx : f x with
    | none => rw [hx] at h; cases h
    | some y =>
      rw [hx] at h
      cases hrest : mapOpt f xs with
      | none => rw [hrest] at h; cases h
      | some ys0 =>
        rw [hrest] at h
        simp only [Option.some.injEq] at h
        rw [← h]
        simp [mapOpt_length f xs ys0 hrest]

/-- Parsed rows re-parse from their rendered comma line to the same values. -/
lemma reparse_rendered_row (fields : List (List Char)) (vs : List PyNum)
    (hp : mapOpt parseField fields = some vs) (hne : fields ≠ []) :
    reparseCsvLine (csvJoin (vs.map renderField)) = some vs := by
  have hvs_ne : vs ≠ [] := by
    intro h0
    subst h0
    have := mapOpt_length parseField fields [] hp
    cases fields with
    | nil => exact hne rfl
    | cons a as => simp at this
  have hrt : mapOpt parseField (vs.map renderField) = some vs := by
    clear hvs_ne hne
    induction fields generalizing vs with
    | nil =>
      simp only [mapOpt, Option.some.injEq] at hp
      rw [← hp]
      rfl
    | cons x xs ih =>
      simp only [mapOpt] at hp
      cases hx : parseField x with
      | none => rw [hx] at hp; cases hp
      | some v =>
        rw [hx] at hp
        cases hrest : mapOpt parseField xs with
        | none => rw [hrest] at hp; cases hp
        | some vs0 =>
          rw [hrest] at hp
          simp only [Option.some.injEq] at hp
          rw [← hp]
          simp only [List.map_cons, mapOpt, parseField_renderField x v hx, ih vs0 hrest]
  rw [reparseCsvLine,
    splitOnChar_csvJoin (vs.map renderField)
      (by simpa using hvs_ne)
      (fun g hg c hc => by
        obtain ⟨v, _, rfl⟩ := List.mem_map.mp hg
        exact renderField_no_comma v c hc),
    hrt]

/-- All parsed rows re-parse from their rendered comma lines to the same values. -/
lemma reparse_all_rows : ∀ (ds : List Line) (rows : List (List PyNum)),
    mapOpt (fun l => mapOpt parseField (pySplitWs (pyStrip l))) ds = some rows →
    (∀ l ∈ ds, pySplitWs (pyStrip l) ≠ []) →
    mapOpt reparseCsvLine (rows.map (fun r => csvJoin (r.map renderField))) = some rows
  | [], rows, hrows, _ => by
    simp only [mapOpt, Option.some.injEq] at hrows
    rw [← hrows]
    rfl
  | l :: ls, rows, hrows, hne => by
    simp only [mapOpt] at hrows
    cases hx : mapOpt parseField (pySplitWs (pyStrip l)) with
    | none => rw [hx] at hrows; cases hrows
    | some v =>
      rw [hx] at hrows
      cases hrest : mapOpt (fun l => mapOpt parseField (pySplitWs (pyStrip l))) ls with
      | none => rw [hrest] at hrows; cases hrows
      | some rs0 =>
        rw [hrest] at hrows
        simp only [Option.some.injEq] at hrows
        rw [← hrows]
        simp only [List.map_cons, mapOpt]
        rw [reparse_rendered_row _ v hx (hne l (by simp)),
          reparse_all_rows ls rs0 hrest (fun x hx2 => hne x (by simp [hx2]))]

/-- Claim C7: normalizing a raw whitespace table with a hash header through
create_csv_from_aims_traj_dump and re-parsing the produced comma-delimited lines
(typing each field float exactly when it contains a decimal point, int otherwise)
recovers exactly the header tokens and the typed numeric rows of a direct parse of
the raw table: the same row count, per-row column count, and values. -/
theorem C7_roundtrip (h : Line) (ds : List Line) (out : List Line)
    (hout : create_csv_from_aims_traj_dump (h :: ds) = some out)
    (hhead_ne : pySplitWs (lstripHash (pyStrip h)) ≠ [])
    (hhead_nc : ∀ t ∈ pySplitWs (lstripHash (pyStrip h)), ∀ c ∈ t, c ≠ ',')
    (hrow_ne : ∀ l ∈ ds, pySplitWs (pyStrip l) ≠ []) :
    reparseCsv out = parseRawTable (h :: ds) ∧
    ∃ rows, parseRawTable (h :: ds) = some (pySplitWs (lstripHash (pyStrip h)), rows) ∧
      rows.length = ds.length := by
  cases hrows : mapOpt (fun l => mapOpt parseField (pySplitWs (pyStrip l))) ds with
  | none =>
    simp only [create_csv_from_aims_traj_dump, hrows] at hout
    cases hout
  | some rows =>
    simp only [create_csv_from_aims_traj_dump, hrows, Option.some.injEq] at hout
    have hraw : parseRawTable (h :: ds) =
        some (pySplitWs (lstripHash (pyStrip h)), rows) := by
      simp only [parseRawTable, hrows]
    refine ⟨?_, rows, hraw, mapOpt_length _ _ _ hrows⟩
    subst hout
    simp only [reparseCsv, reparse_all_rows ds rows hrows hrow_ne]
    rw [splitOnChar_csvJoin _ hhead_ne hhead_nc, hraw]

/-- Witness for C7_roundtrip at a concrete two-row integer table. -/
theorem C7_witness :
    reparseCsv ["Time,x".toList, "0,1".toList, "2,3".toList] =
      parseRawTable ["#Time x".toList, "0 1".toList, "2 3".toList] ∧
    ∃ rows, parseRawTable ["#Time x".toList, "0 1".toList, "2 3".toList] =
      some (pySplitWs (lstripHash (pyStrip ("#Time x".toList))), rows) ∧
      rows.length = (["0 1".toList, "2 3".toList] : List Line).length :=
  C7_roundtrip ("#Time x".toList) ["0 1".toList, "2 3".toList]
    ["Time,x".toList, "0,1".toList, "2,3".toList]
    (by decide) (by decide) (by decide) (by decide)
